import Mathlib

/-!
Verification of the RAG4TUM retrieval-fusion pipeline.

This file gives a shallow embedding, in Lean 4, of the core retrieval logic of
the repository and proves (or refutes) the frozen specification claims about it.

Embedded source files:
* `src/rag/retriever/improved_query_parser.py` (query intent extraction),
* `src/rag/retriever/hybrid_retriever.py` (fusion merge, filter/boost with
  relaxation, rerank with exact-match priority, pipeline orchestration),
* `src/rag/retriever/improved_hybrid_retriever.py` (`_enhanced_rerank`).

Conventions of the embedding:
* Python strings are `List Char` (abbreviated `Str`); `s.lower()` is
  `pyLower`, `s.strip()` is `pyStrip`, the substring test `a in b` is
  `containsSub b a`, `s.replace(c, d)` (single characters) is `pyReplace`,
  `s.split()` is `pySplitWS` and `s.split(",")` is `pySplitChar`.
* Python floats are modelled as exact rationals `ℚ` (all score arithmetic in
  the source is on small decimal constants, where float and rational
  arithmetic order values identically).
* Python dicts used as key-value rows (chunk metadata, the merge dictionary)
  are association lists with in-place update (`setKey`), which preserves the
  dict's insertion order exactly as CPython does.
* Fallible external calls (FAISS dense search, BM25 sparse search, the
  cross-encoder `predict`) are injected as `Except Unit`-valued functions;
  a Python `try/except` around them becomes a `match` on the result.
* Python's stable `list.sort(key=…, reverse=True)` is `sortByDesc`, an
  insertion sort that is stable and sorts descending by the key.  The keyless
  `rows.sort(reverse=True)` calls on `(score, (doc, base))` tuples are
  `pySortDescRows`: as in CPython, they raise `TypeError` (modelled as
  `Except.error ()`) when two rows tie on the score while holding
  field-unequal `Document`s (langchain's `Document` is a pydantic model with
  value equality and no ordering), and otherwise sort stably descending by
  `(score, base)`.
-/

set_option linter.unusedVariables false

/-- Python strings, modelled as lists of characters. -/
abbrev Str : Type := List Char

/-- Coerce a Lean string literal to the embedding's string type. -/
def str (s : String) : Str := s.data

/-- Python `str.lower()` (ASCII case folding, as used by every query and
metadata string in the source). -/
def pyLower (s : Str) : Str := s.map Char.toLower

/-- Whitespace test used by Python's `str.strip()` / `str.split()`. -/
def isWS (c : Char) : Bool := c = ' ' || c = '\t' || c = '\n' || c = '\r'

/-- Python `str.strip()`: drop leading and trailing whitespace. -/
def pyStrip (s : Str) : Str := ((s.dropWhile isWS).reverse.dropWhile isWS).reverse

/-- Boolean list-prefix test (first argument is the candidate pattern). -/
def isPrefixOfCL : Str → Str → Bool
  | [], _ => true
  | _ :: _, [] => false
  | a :: as, b :: bs => a = b && isPrefixOfCL as bs

/-- Python's substring containment `pat in hay`. -/
def containsSub (hay pat : Str) : Bool :=
  match hay with
  | [] => isPrefixOfCL pat []
  | c :: t => isPrefixOfCL pat (c :: t) || containsSub t pat

/-- Python `s.replace(a, b)` for single-character `a`, `b`. -/
def pyReplace (s : Str) (a b : Char) : Str := s.map (fun c => if c = a then b else c)

/-- Helper for `pySplitWS`; the accumulator holds the current word reversed. -/
def splitWSAux : Str → Str → List Str
  | [], acc => if acc = [] then [] else [acc.reverse]
  | c :: cs, acc =>
    if isWS c then
      (if acc = [] then splitWSAux cs [] else acc.reverse :: splitWSAux cs [])
    else splitWSAux cs (c :: acc)

/-- Python `s.split()`: split on whitespace runs, dropping empty pieces. -/
def pySplitWS (s : Str) : List Str := splitWSAux s []

/-- Helper for `pySplitChar`. -/
def splitCharAux (sep : Char) : Str → Str → List Str
  | [], acc => [acc.reverse]
  | c :: cs, acc =>
    if c = sep then acc.reverse :: splitCharAux sep cs []
    else splitCharAux sep cs (c :: acc)

/-- Python `s.split(sep)` for a one-character separator (keeps empty pieces). -/
def pySplitChar (s : Str) (sep : Char) : List Str := splitCharAux sep s []

/-- Regex word character (`\w`), for the ASCII inputs used by the parser. -/
def isWordChar (c : Char) : Bool := c.isAlphanum || c = '_'

/-- There is a word boundary before a word character at a position whose
preceding character is `prev` (`none` at the start of the string). -/
def atWordStart (prev : Option Char) : Bool :=
  match prev with
  | none => true
  | some c => !(isWordChar c)

/-- The word `w` occurs at the head of `s` with a word boundary after it. -/
def wordHereBool (w : Str) (s : Str) : Bool :=
  isPrefixOfCL w s &&
    (match s.drop w.length with
     | [] => true
     | c :: _ => !(isWordChar c))

/-- Scan for a whole-word (`\bw\b`) occurrence; `prev` is the character before
the current position. -/
def containsWordAux (w : Str) : Option Char → Str → Bool
  | prev, [] => atWordStart prev && wordHereBool w []
  | prev, c :: t => (atWordStart prev && wordHereBool w (c :: t)) || containsWordAux w (some c) t

/-- `re.search(r"\bw\b", s)` for a pattern `w` made of word characters (also
correct for the source's `m\.sc\.?\b` patterns, see `extract_degree`). -/
def containsWord (s w : Str) : Bool := containsWordAux w none s

/-- Scan for `\bw` (word-start anchored, no right boundary), as in the
source's `\bdoctor` degree pattern. -/
def containsWordLAux (w : Str) : Option Char → Str → Bool
  | prev, [] => atWordStart prev && isPrefixOfCL w []
  | prev, c :: t => (atWordStart prev && isPrefixOfCL w (c :: t)) || containsWordLAux w (some c) t

/-- `re.search(r"\bw", s)`. -/
def containsWordL (s w : Str) : Bool := containsWordLAux w none s

/-- One step of the two-word program patterns: some alternative of `A` at the
head, then `\s+`, then some alternative of `B`, then a word boundary. -/
def pairHere (A B : List Str) (s : Str) : Bool :=
  A.any (fun a =>
    isPrefixOfCL a s &&
      (match s.drop a.length with
       | [] => false
       | c :: _ =>
         isWS c &&
           (let r2 := (s.drop a.length).dropWhile isWS
            B.any (fun b =>
              isPrefixOfCL b r2 &&
                (match r2.drop b.length with
                 | [] => true
                 | d :: _ => !(isWordChar d))))))

/-- Scan for `\b(A₁|A₂|…)\s+(B₁|B₂|…)\b` anywhere in the string. -/
def pairAux (A B : List Str) : Option Char → Str → Bool
  | _, [] => false
  | prev, c :: t => (atWordStart prev && pairHere A B (c :: t)) || pairAux A B (some c) t

/-- `re.search` for the source's two-word `PROGRAM_PATTERNS` entries. -/
def pairContains (q : Str) (A B : List Str) : Bool := pairAux A B none q

/-- First word of `wl` (in alternation order) that occurs whole-word at the
head of `s`; returns the word and the remainder after it. -/
def findRemovable (wl : List Str) (s : Str) : Option (Str × Str) :=
  match wl with
  | [] => none
  | w :: rest => if wordHereBool w s then some (w, s.drop w.length) else findRemovable rest s

/-- Fuel-driven scanner for `re.sub(r"\b(w₁|w₂|…)\b", "", s)`: removes each
leftmost non-overlapping whole-word occurrence. -/
def subWordsAux (wl : List Str) : Nat → Option Char → Str → Str
  | 0, _, s => s
  | _ + 1, _, [] => []
  | fuel + 1, prev, c :: t =>
    if atWordStart prev then
      match findRemovable wl (c :: t) with
      | some (w, rest) => subWordsAux wl fuel w.getLast? rest
      | none => c :: subWordsAux wl fuel (some c) t
    else c :: subWordsAux wl fuel (some c) t

/-- `re.sub(r"\b(w₁|…)\b", "", s)` (fuel `s.length + 1` always suffices). -/
def pySubWords (wl : List Str) (s : Str) : Str := subWordsAux wl (s.length + 1) none s

/-! ## Query intent extraction (`improved_query_parser.py`) -/

/-- `QueryIntent` dataclass of the parser. -/
structure QueryIntent where
  program : Str
  degree : Str
  category : Str
  intent_type : Str
  entities : List Str
  temporal_keywords : List Str
deriving DecidableEq

/-- `TEMPORAL_KEYWORDS` table of the parser, in declaration order. -/
def TEMPORAL_KEYWORDS : List Str :=
  [str (r"when"), str (r"deadline"), str (r"due"), str (r"date"), str (r"period"),
   str (r"timeline"), str (r"schedule"), str (r"winter"), str (r"summer"),
   str (r"semester"), str (r"application period"), str (r"until")]

/-- `_extract_temporal_keywords`: all temporal keywords contained in the
lowercased query, in table order. -/
def extract_temporal_keywords (ql : Str) : List Str :=
  TEMPORAL_KEYWORDS.filter (fun k => containsSub ql k)

/-- `SEMANTIC_CATEGORIES` table: (intent name, keywords, category), in
declaration order.  The `priority` field of the source is stored but never
read by any decision, so it is omitted. -/
def SEMANTIC_CATEGORIES : List (Str × List Str × Str) :=
  [ (str (r"deadline_intent"),
     [str (r"deadline"), str (r"due"), str (r"when"), str (r"date"), str (r"period"),
      str (r"timeline"), str (r"schedule"), str (r"time")], str (r"apply")),
    (str (r"application_intent"),
     [str (r"apply"), str (r"application"), str (r"submit"), str (r"admission"),
      str (r"how to"), str (r"process"), str (r"procedure")], str (r"apply")),
    (str (r"document_intent"),
     [str (r"documents"), str (r"papers"), str (r"certificates"), str (r"transcripts"),
      str (r"requirements"), str (r"needed")], str (r"apply")),
    (str (r"program_info_intent"),
     [str (r"about"), str (r"overview"), str (r"description"), str (r"what is"),
      str (r"curriculum"), str (r"courses"), str (r"modules")], str (r"info")),
    (str (r"cost_duration_intent"),
     [str (r"cost"), str (r"fee"), str (r"price"), str (r"duration"), str (r"credits"),
      str (r"ects"), str (r"semesters"), str (r"years")], str (r"keydata")) ]

/-- Keyword weighting of `_detect_semantic_intent`: 3 for the high-signal
keywords, 2 for the medium ones, 1 otherwise. -/
def keywordWeight (k : Str) : Nat :=
  if k = str (r"deadline") ∨ k = str (r"when") ∨ k = str (r"apply") ∨ k = str (r"how to") then 3
  else if k = str (r"documents") ∨ k = str (r"requirements") ∨ k = str (r"cost") then 2
  else 1

/-- Score of one intent: sum of weights of its keywords found in the query. -/
def intentScore (ql : Str) (kws : List Str) : Nat :=
  kws.foldl (fun s k => if containsSub ql k then s + keywordWeight k else s) 0

/-- Python `max(..., key=score)` over a nonempty list: first entry attaining
the maximum score wins (ties keep the earlier entry). -/
def pickBest : List (Str × Nat × Str) → Option (Str × Nat × Str)
  | [] => none
  | x :: xs => some (xs.foldl (fun b y => if y.2.1 > b.2.1 then y else b) x)

/-- `_detect_semantic_intent`: returns `(category, intent_type)`. -/
def detect_semantic_intent (ql : Str) : Str × Str :=
  let scored := (SEMANTIC_CATEGORIES.map (fun e => (e.1, intentScore ql e.2.1, e.2.2))).filter
      (fun e => e.2.1 > 0)
  match pickBest scored with
  | none => ([], str (r"general"))
  | some best => (best.2.2, if best.2.1 ≥ 3 then str (r"specific") else str (r"general"))

/-- `_extract_degree`: the three degree regexes, first match wins.
`\bmaster\b|\bmsc\b|\bm\.sc\.?\b` reduces to whole-word search for
`master`, `msc` and `m.sc` (for the latter, the optional trailing dot makes
the right boundary hold exactly when the next character is a non-word
character or the string ends, because `.` itself is a non-word character). -/
def extract_degree (ql : Str) : Str :=
  if containsWord ql (str (r"master")) || containsWord ql (str (r"msc")) ||
      containsWord ql (str (r"m.sc")) then str (r"msc")
  else if containsWord ql (str (r"bachelor")) || containsWord ql (str (r"bsc")) ||
      containsWord ql (str (r"b.sc")) then str (r"bsc")
  else if containsWord ql (str (r"phd")) || containsWordL ql (str (r"doctor")) ||
      containsWord ql (str (r"doctoral")) then str (r"phd")
  else []

/-- The degree noise words stripped by `_extract_program_enhanced`, in the
alternation order of its `re.sub` pattern. -/
def degreeNoiseWords : List Str :=
  [str (r"master"), str (r"bachelor"), str (r"msc"), str (r"bsc"), str (r"phd"),
   str (r"degree"), str (r"program")]

/-- `_extract_program_enhanced`: exact two-word patterns in table order, the
optional-plural single-word patterns, then the fuzzy keyword fallback
validated by a co-occurring discipline word. -/
def extract_program_enhanced (query : Str) : Str :=
  let qc := pySubWords degreeNoiseWords (pyLower query)
  if pairContains qc [str (r"information"), str (r"informatik")]
      [str (r"engineering"), str (r"ingenieurwesen")] then str (r"information-engineering")
  else if pairContains qc [str (r"computer"), str (r"computing")]
      [str (r"science"), str (r"informatics"), str (r"informatik")] then str (r"computer-science")
  else if pairContains qc [str (r"data"), str (r"daten")]
      [str (r"engineering"), str (r"science"), str (r"wissenschaft")] then str (r"data-engineering")
  else if pairContains qc [str (r"electrical"), str (r"elektro")]
      [str (r"engineering"), str (r"technik")] then str (r"electrical-engineering")
  else if pairContains qc [str (r"mechanical"), str (r"maschinen")]
      [str (r"engineering"), str (r"bau")] then str (r"mechanical-engineering")
  else if pairContains qc [str (r"bioprocess"), str (r"bio")]
      [str (r"engineering"), str (r"technik")] then str (r"bioprocess-engineering")
  else if containsWord qc (str (r"informatic")) || containsWord qc (str (r"informatics")) then
    str (r"informatics")
  else if containsWord qc (str (r"mathematic")) || containsWord qc (str (r"mathematics")) then
    str (r"mathematics")
  else if containsWord qc (str (r"physic")) || containsWord qc (str (r"physics")) then
    str (r"physics")
  else if containsSub qc (str (r"information")) &&
      (containsSub qc (str (r"engineering")) || containsSub qc (str (r"science"))) then
    str (r"information-engineering")
  else if containsSub qc (str (r"computer")) &&
      (containsSub qc (str (r"engineering")) || containsSub qc (str (r"science"))) then
    str (r"computer-science")
  else if containsSub qc (str (r"data")) &&
      (containsSub qc (str (r"engineering")) || containsSub qc (str (r"science"))) then
    str (r"data-engineering")
  else if containsSub qc (str (r"electrical")) &&
      (containsSub qc (str (r"engineering")) || containsSub qc (str (r"science"))) then
    str (r"electrical-engineering")
  else []

/-- Uppercase letter `[A-Z]` of the entity regex. -/
def isUpperAZ (c : Char) : Bool := 'A' ≤ c && c ≤ 'Z'

/-- Lowercase letter `[a-z]` of the entity regex. -/
def isLowerAZ (c : Char) : Bool := 'a' ≤ c && c ≤ 'z'

/-- One `[A-Z][a-z]+` unit of the capitalized-phrase regex. -/
def capUnit (s : Str) : Option (Str × Str) :=
  match s with
  | [] => none
  | c :: t =>
    if isUpperAZ c then
      let low := t.takeWhile isLowerAZ
      if low = [] then none else some (c :: low, t.drop low.length)
    else none

/-- Greedy extension `(?:\s+[A-Z][a-z]+)*\b` with regex backtracking: prefer
the longest chain of units, fall back to ending the match at the current
unit when the final word boundary fails. -/
def capPhraseGrow : Nat → Str → Str → Option (Str × Str)
  | 0, _, _ => none
  | fuel + 1, acc, s =>
    let wsp := s.takeWhile isWS
    let ext :=
      if wsp = [] then none
      else
        match capUnit (s.drop wsp.length) with
        | some (u, rest) => capPhraseGrow fuel (acc ++ wsp ++ u) rest
        | none => none
    match ext with
    | some r => some r
    | none =>
      match s with
      | [] => some (acc, [])
      | c :: _ => if isWordChar c then none else some (acc, s)

/-- A whole `\b[A-Z][a-z]+(?:\s+[A-Z][a-z]+)*\b` match starting here. -/
def capPhraseAt (fuel : Nat) (s : Str) : Option (Str × Str) :=
  match capUnit s with
  | none => none
  | some (u, rest) => capPhraseGrow fuel u rest

/-- `re.findall` scan for capitalized phrases (non-overlapping, left to
right). -/
def findCapMatches : Nat → Option Char → Str → List Str
  | 0, _, _ => []
  | _ + 1, _, [] => []
  | fuel + 1, prev, c :: t =>
    if atWordStart prev then
      match capPhraseAt fuel (c :: t) with
      | some (m, rest) => m :: findCapMatches fuel m.getLast? rest
      | none => findCapMatches fuel (some c) t
    else findCapMatches fuel (some c) t

/-- `re.findall` scan for whole-word occurrences of an alternation. -/
def findWordMatches (wl : List Str) : Nat → Option Char → Str → List Str
  | 0, _, _ => []
  | _ + 1, _, [] => []
  | fuel + 1, prev, c :: t =>
    if atWordStart prev then
      match findRemovable wl (c :: t) with
      | some (w, rest) => w :: findWordMatches wl fuel w.getLast? rest
      | none => findWordMatches wl fuel (some c) t
    else findWordMatches wl fuel (some c) t

/-- Technical-term alternation of `_extract_entities`. -/
def techTerms : List Str :=
  [str (r"engineering"), str (r"science"), str (r"informatics"), str (r"mathematics"),
   str (r"physics"), str (r"chemistry")]

/-- `_extract_entities`.  The source ends with `list(set(entities))`, whose
order CPython leaves unspecified (hash-dependent); the embedding fixes a
deterministic deduplication.  No downstream decision reads `entities`. -/
def extract_entities (query : Str) : List Str :=
  let caps := findCapMatches (query.length + 1) none query
  let tech := findWordMatches techTerms (query.length + 1) none (pyLower query)
  (caps ++ tech).dedup

/-- `enhanced_parse_query`: program, degree, semantic category/intent,
entities, temporal keywords, then the deadline override rule of step 5. -/
def enhanced_parse_query (query : Str) : QueryIntent :=
  let query_lower := pyStrip (pyLower query)
  let program := extract_program_enhanced query
  let degree := extract_degree query_lower
  let sem := detect_semantic_intent query_lower
  let entities := extract_entities query
  let temporal := extract_temporal_keywords query_lower
  if temporal ≠ [] ∧ containsSub query_lower (str (r"deadline")) = true then
    { program := program, degree := degree, category := str (r"apply"),
      intent_type := str (r"specific"), entities := entities,
      temporal_keywords := temporal }
  else
    { program := program, degree := degree, category := sem.1,
      intent_type := sem.2, entities := entities, temporal_keywords := temporal }

/-! ## Data model and fusion merge of the retrievers -/

/-- A retrievable chunk: LangChain `Document` with its metadata dict, its
`page_content`, and `addr`, the per-query-stable object address that Python's
`id(doc)` returns (used as the merge key fallback). -/
structure Doc where
  metadata : List (Str × Str)
  page_content : Str
  addr : Nat
deriving DecidableEq

/-- Python `meta.get(k, "")` on the metadata dict. -/
def metaGet (m : List (Str × Str)) (k : Str) : Str :=
  match m with
  | [] => []
  | (k', v) :: rest => if k' = k then v else metaGet rest k

/-- Merge-dictionary keys: either a chunk id string or an object address
(a Python string never equals a Python int, hence the sum). -/
abbrev Key : Type := Sum Str Nat

/-- `doc.metadata.get("id") or id(doc)`: the id string when present and
non-empty (a missing key yields `""` through `metaGet`, and both `None` and
`""` are falsy), else the object address. -/
def docKey (d : Doc) : Key :=
  if metaGet d.metadata (str (r"id")) = [] then Sum.inr d.addr
  else Sum.inl (metaGet d.metadata (str (r"id")))

/-- Lookup in an association-list dict. -/
def lookupKey {α : Type} (k : Key) : List (Key × α) → Option α
  | [] => none
  | (k', v) :: rest => if k' = k then some v else lookupKey k rest

/-- CPython dict store `m[k] = v`: replaces in place, keeping insertion
order, or appends a fresh key at the end. -/
def setKey {α : Type} (k : Key) (v : α) : List (Key × α) → List (Key × α)
  | [] => [(k, v)]
  | (k', v') :: rest => if k' = k then (k, v) :: rest else (k', v') :: setKey k v rest

/-- One iteration of the merge loop of `retrieve` (identical in
`hybrid_retriever.py` and `improved_hybrid_retriever.py`):
`if key not in merged or score > merged[key][1]: merged[key] = (doc, score)`. -/
def mergeStep (m : List (Key × (Doc × ℚ))) (ds : Doc × ℚ) : List (Key × (Doc × ℚ)) :=
  match lookupKey (docKey ds.1) m with
  | none => setKey (docKey ds.1) ds m
  | some prev => if prev.2 < ds.2 then setKey (docKey ds.1) ds m else m

/-- The fusion merger over the concatenated dense and sparse result lists. -/
def mergeResults (l : List (Doc × ℚ)) : List (Key × (Doc × ℚ)) := l.foldl mergeStep []

/-- The key ordering used to model Python's `sort(key=f, reverse=True)`. -/
def keyOrd {α K : Type} [LinearOrder K] (f : α → K) : α → α → Prop := fun a b => f b ≤ f a

instance {α K : Type} [LinearOrder K] (f : α → K) : DecidableRel (keyOrd f) :=
  fun a b => inferInstanceAs (Decidable (f b ≤ f a))

instance {α K : Type} [LinearOrder K] (f : α → K) : IsTotal α (keyOrd f) :=
  ⟨fun a b => le_total (f b) (f a)⟩

instance {α K : Type} [LinearOrder K] (f : α → K) : IsTrans α (keyOrd f) :=
  ⟨fun _ _ _ h1 h2 => le_trans h2 h1⟩

/-- Python's stable `list.sort(key=f, reverse=True)`: stable insertion sort,
descending by the key (ties keep input order, like CPython's stable sort). -/
def sortByDesc {α K : Type} [LinearOrder K] (f : α → K) (l : List α) : List α :=
  List.insertionSort (keyOrd f) l

/-- The query-derived filters in legacy format (`slug`/`degree`/`category`);
an empty string models a missing/falsy entry of the Python dict. -/
structure Filters where
  slug : Str
  degree : Str
  category : Str
deriving DecidableEq

/-- `convert_to_legacy_format`. -/
def convert_to_legacy_format (i : QueryIntent) : Filters :=
  { slug := i.program, degree := i.degree, category := i.category }

/-- The configuration surface read by the retrievers (`cfg.get(…)` calls are
modelled as field reads; the source defaults are `top_m = 12`, `top_k = 8`
for the hybrid retriever and `top_m = 20`, `top_k = 10`,
`min_rerank_score = -5.0` for the improved one). -/
structure Cfg where
  n_dense : Nat
  n_sparse : Nat
  top_m : Nat
  top_k : Nat
  min_rerank_score : ℚ
deriving DecidableEq

/-- All scores submitted to the merger for a given chunk identity. -/
def submittedScores (l : List (Doc × ℚ)) (k : Key) : List ℚ :=
  (l.filter (fun ds => decide (docKey ds.1 = k))).map (fun ds => ds.2)

/-- Invariant carried through the merge fold: keys are unique, every stored
entry carries the maximum of the scores seen so far for its key, and every
key with a submitted score is present. -/
def MergeInv (g : Key → List ℚ) (m : List (Key × (Doc × ℚ))) : Prop :=
  (m.map Prod.fst).Nodup ∧
  ∀ k : Key,
    (∀ d s, lookupKey k m = some (d, s) → s ∈ g k ∧ ∀ s' ∈ g k, s' ≤ s) ∧
    (g k ≠ [] → (lookupKey k m).isSome = true)

/-- A concrete chunk used by the C2 witness. -/
def wDocA : Doc := ⟨[(str (r"id"), str (r"a"))], str (r"x"), 0⟩

/-! ## Filter/Booster (`_apply_filters_with_boosting` of `hybrid_retriever.py`) -/

/-- `filters["slug"].lower().replace('-', ' ')`, the normalized program
query used by both the filter and the reranker (`target_program`). -/
def slugQueryF (f : Filters) : Str := pyReplace (pyLower f.slug) '-' ' '

/-- The `wanted` category set: `{c.strip().lower() for c in filters["category"].split(",")}`
(modelled as the list of its elements; only membership and `any` are used). -/
def wantedSet (f : Filters) : List Str :=
  (pySplitChar f.category ',').map (fun c => pyLower (pyStrip c))

/-- Lowercased `program` metadata field. -/
def docProgramL (d : Doc) : Str := pyLower (metaGet d.metadata (str (r"program")))

/-- Lowercased `slug` metadata field. -/
def docSlugL (d : Doc) : Str := pyLower (metaGet d.metadata (str (r"slug")))

/-- Lowercased `category` metadata field. -/
def docCategoryL (d : Doc) : Str := pyLower (metaGet d.metadata (str (r"category")))

/-- Lowercased `section` metadata field. -/
def docSectionL (d : Doc) : Str := pyLower (metaGet d.metadata (str (r"section")))

/-- Program match quality of `ok`: 1.0 for exact slug/program equality, 0.8
for substring containment, else 0.6 scaled by the fraction of matching
words, 0 with no slug filter or no match at all. -/
def programQuality (f : Filters) (d : Doc) : ℚ :=
  if f.slug ≠ [] then
    if slugQueryF f = docSlugL d ∨ slugQueryF f = docProgramL d then 1
    else if containsSub (docSlugL d) (slugQueryF f) || containsSub (docProgramL d) (slugQueryF f) then 0.8
    else if (pySplitWS (slugQueryF f)).any (fun t => containsSub (docProgramL d) t) then
      ((((pySplitWS (slugQueryF f)).filter (fun t => containsSub (docProgramL d) t)).length : ℚ) /
          ((pySplitWS (slugQueryF f)).length : ℚ)) * 0.6
    else 0
  else 0

/-- Category match quality of `ok`: 1.0 direct category membership in the
wanted set, 0.8 section containment, 0.6 looser containment, 0.4 body-text
containment, 0 otherwise; 0.5 neutral default without a category filter. -/
def categoryQuality (f : Filters) (d : Doc) : ℚ :=
  if f.category ≠ [] then
    if docCategoryL d ≠ [] ∧ docCategoryL d ∈ wantedSet f then 1
    else if docSectionL d ≠ [] ∧ (wantedSet f).any (fun cat => containsSub (docSectionL d) cat) then 0.8
    else if (wantedSet f).any (fun cat => containsSub (docCategoryL d) cat) ||
        (wantedSet f).any (fun cat => containsSub (docSectionL d) cat) then 0.6
    else if d.page_content ≠ [] ∧ (wantedSet f).any (fun cat => containsSub (pyLower d.page_content) cat) then 0.4
    else 0
  else 0.5

/-- Combined match quality of `ok`. -/
def matchQuality (f : Filters) (d : Doc) : ℚ :=
  if programQuality f d > 0 then
    if categoryQuality f d > 0.7 then programQuality f d * 1.5 + categoryQuality f d
    else programQuality f d + categoryQuality f d * 0.3
  else
    if categoryQuality f d > 0.8 then categoryQuality f d * 0.5
    else 0.1

/-- The inner `ok(meta)` of `_apply_filters_with_boosting`: returns whether
the candidate passes and the boost factor to apply.  A candidate with an
empty metadata dict is rejected up front (`if not meta: return False, 1.0`). -/
def okPair (f : Filters) (d : Doc) : Bool × ℚ :=
  if d.metadata = [] then (false, 1)
  else if programQuality f d > 0 ∨ (f.category ≠ [] ∧ categoryQuality f d > 0.5) then
    (true, 1 + matchQuality f d * 2)
  else if f.slug ≠ [] ∨ f.category ≠ [] then (false, 1)
  else (true, 1)

/-- One candidate of the strict filtering pass: kept with its boosted score,
or dropped. -/
def strictEntry (f : Filters) (ds : Doc × ℚ) : Option (Doc × ℚ) :=
  if (okPair f ds.1).1 then some (ds.1, ds.2 * (okPair f ds.1).2) else none

/-- One candidate of the relaxed fallback pass: kept at a flat 0.8 of its
fused score when its program text contains some slug-query word longer than
3 characters (documents without metadata are skipped, as in the source). -/
def relaxEntry (f : Filters) (ds : Doc × ℚ) : Option (Doc × ℚ) :=
  if ds.1.metadata = [] then none
  else if (pySplitWS (slugQueryF f)).any
      (fun w => decide (3 < w.length) && containsSub (docProgramL ds.1) w) then
    some (ds.1, ds.2 * 0.8)
  else none

/-- `_apply_filters_with_boosting`: strict pass over the merged dict values,
relaxed fallback when the strict pass kept nothing and a slug filter is
active, then a stable descending sort by boosted score. -/
def apply_filters_with_boosting (merged : List (Key × (Doc × ℚ))) (f : Filters) :
    List (Doc × ℚ) :=
  let strict := (merged.map (fun kv => kv.2)).filterMap (strictEntry f)
  let results :=
    if strict = [] ∧ f.slug ≠ [] then (merged.map (fun kv => kv.2)).filterMap (relaxEntry f)
    else strict
  sortByDesc (fun ds => ds.2) results

/-- Concrete candidates for the C3 witness. -/
def wDocB : Doc := ⟨[(str (r"program"), str (r"physics"))], str (r"p"), 1⟩

/-- Filters of the C9/C4 concrete instances: program `math`, category
`apply`. -/
def f9 : Filters := ⟨str (r"math"), [], str (r"apply")⟩

/-- A chunk matching `f9` exactly in both program and category. -/
def d9 : Doc := ⟨[(str (r"program"), str (r"math")), (str (r"category"), str (r"apply"))], [], 0⟩

/-- The C4 witness candidate differing from `d9` only in category. -/
def d9i : Doc := ⟨[(str (r"program"), str (r"math")), (str (r"category"), str (r"info"))], [], 0⟩

/-! ## Reranker with exact-match priority (`_rerank_with_exact_priority`) -/

/-- `target_category = filters.get("category", "").lower()`. -/
def targetCategoryF (f : Filters) : Str := pyLower f.category

/-- `is_program_match`: a program filter is present and the target program
is contained in the candidate's program text. -/
def isPMatch (f : Filters) (d : Doc) : Bool :=
  decide (slugQueryF f ≠ []) && containsSub (docProgramL d) (slugQueryF f)

/-- `is_category_match`: a category filter is present and the candidate's
category equals the target, or the target occurs in the section, or the
candidate is `apply`-categorized with an `application` section. -/
def isCMatch (f : Filters) (d : Doc) : Bool :=
  decide (targetCategoryF f ≠ []) &&
    (decide (docCategoryL d = targetCategoryF f) ||
      containsSub (docSectionL d) (targetCategoryF f) ||
      (decide (docCategoryL d = str (r"apply")) &&
        containsSub (docSectionL d) (str (r"application"))))

/-- `has_program_filter or has_category_filter`. -/
def hasFilterR (f : Filters) : Bool :=
  decide (slugQueryF f ≠ []) || decide (targetCategoryF f ≠ [])

/-- `exact_program_category_matches` tier (loop order preserved). -/
def tiersEPC (f : Filters) (l : List (Doc × ℚ)) : List (Doc × ℚ) :=
  if hasFilterR f then l.filter (fun ds => isPMatch f ds.1 && isCMatch f ds.1) else []

/-- `exact_program_matches` tier. -/
def tiersEPM (f : Filters) (l : List (Doc × ℚ)) : List (Doc × ℚ) :=
  if hasFilterR f then l.filter (fun ds => isPMatch f ds.1 && !(isCMatch f ds.1)) else []

/-- `other_matches` tier (everything, when no filter is present). -/
def tiersOM (f : Filters) (l : List (Doc × ℚ)) : List (Doc × ℚ) :=
  if hasFilterR f then l.filter (fun ds => !(isPMatch f ds.1)) else l

/-- `results_to_rerank`: the highest nonempty tier, truncated to `top_m`. -/
def chosenToRerank (f : Filters) (l : List (Doc × ℚ)) (m : Nat) : List (Doc × ℚ) :=
  if tiersEPC f l ≠ [] then (tiersEPC f l).take m
  else if tiersEPM f l ≠ [] then (tiersEPM f l).take m
  else (tiersOM f l).take m

/-- The predicate of the top-3 check: exact (equality) program match and
category `"apply"`, regardless of the target category. -/
def isTop3ApplyMatch (f : Filters) (d : Doc) : Bool :=
  decide (docProgramL d = slugQueryF f) && decide (docCategoryL d = str (r"apply"))

/-- The priority-insertion step: when program+category matches exist but no
top-3 result is an exact-program `apply` match, insert the first
`apply`-categorized program+category match at the front with score 1.0 and
re-truncate to `top_k`. -/
def applyInsertFix (f : Filters) (epc : List (Doc × ℚ)) (k : Nat)
    (results : List (ℚ × (Doc × ℚ))) : List (ℚ × (Doc × ℚ)) :=
  if 0 < epc.length ∧ (results.take 3).any (fun r => isTop3ApplyMatch f r.2.1) = false then
    match epc.find? (fun ds => decide (docCategoryL ds.1 = str (r"apply"))) with
    | some ds => ((1, ds) :: results).take k
    | none => results
  else results

/-- Pydantic value equality of two `Document`s, as CPython's tuple comparison
uses it: langchain's `Document` is a pydantic model comparing field values
(`page_content` and `metadata`); the object address `addr` models `id(doc)`
and is not a field. -/
def docFieldsEq (d1 d2 : Doc) : Bool :=
  decide (d1.metadata = d2.metadata) && decide (d1.page_content = d2.page_content)

/-- A comparison of two `(score, (doc, base))` rows that CPython cannot
complete: the scores tie and the `Document`s are field-unequal, so the tuple
comparison falls through to `Document < Document` and raises `TypeError`
(pydantic models define no ordering). -/
def raisingPair (r1 r2 : ℚ × (Doc × ℚ)) : Bool :=
  decide (r1.1 = r2.1) && !(docFieldsEq r1.2.1 r2.2.1)

/-- Whether the row list holds a pair whose comparison raises (the sort must
order any tied pair next to each other and compares it doing so). -/
def hasRaisingPair : List (ℚ × (Doc × ℚ)) → Bool
  | [] => false
  | r :: t => t.any (fun s => raisingPair r s) || hasRaisingPair t

/-- The descending tuple order CPython applies to the non-raising row lists:
by score first; rows tying on the score hold field-equal `Document`s there,
so the comparison falls through to the base score. -/
def rowOrd (a b : ℚ × (Doc × ℚ)) : Prop := b.1 < a.1 ∨ (b.1 = a.1 ∧ b.2.2 ≤ a.2.2)

instance : DecidableRel rowOrd :=
  fun a b => inferInstanceAs (Decidable (b.1 < a.1 ∨ (b.1 = a.1 ∧ b.2.2 ≤ a.2.2)))

instance : IsTotal (ℚ × (Doc × ℚ)) rowOrd := by
  constructor
  intro a b
  simp only [rowOrd]
  rcases lt_trichotomy b.1 a.1 with h | h | h
  · exact Or.inl (Or.inl h)
  · rcases le_total b.2.2 a.2.2 with h2 | h2
    · exact Or.inl (Or.inr ⟨h, h2⟩)
    · exact Or.inr (Or.inr ⟨h.symm, h2⟩)
  · exact Or.inr (Or.inl h)

instance : IsTrans (ℚ × (Doc × ℚ)) rowOrd := by
  constructor
  intro a b c hab hbc
  simp only [rowOrd] at hab hbc ⊢
  rcases hab with h1 | ⟨h1, h1'⟩
  · rcases hbc with h2 | ⟨h2, h2'⟩
    · exact Or.inl (lt_trans h2 h1)
    · exact Or.inl (by rw [h2]; exact h1)
  · rcases hbc with h2 | ⟨h2, h2'⟩
    · exact Or.inl (by rw [← h1]; exact h2)
    · exact Or.inr ⟨h2.trans h1, le_trans h2' h1'⟩

/-- The order `rows.sort(reverse=True)` produces when no comparison raises:
stable insertion sort under `rowOrd`. -/
def sortRowsDesc (l : List (ℚ × (Doc × ℚ))) : List (ℚ × (Doc × ℚ)) :=
  List.insertionSort rowOrd l

/-- `rows.sort(reverse=True)` on `(score, (doc, base))` rows: raises
`TypeError` (modelled as `Except.error ()`) when two rows tie on the score
while holding field-unequal `Document`s, else the stable descending tuple
order. -/
def pySortDescRows (l : List (ℚ × (Doc × ℚ))) :
    Except Unit (List (ℚ × (Doc × ℚ))) :=
  if hasRaisingPair l = true then Except.error () else Except.ok (sortRowsDesc l)

/-- The `try` body of `_rerank_with_exact_priority`: tiering, cross-encoder
scoring of the chosen tier, the fallible `reranked.sort(reverse=True)`
(which raises on a logit tie between field-unequal `Document`s), truncation
to `top_k`, then the priority-insertion step.  `predict` and the sort can
raise, and both errors reach the enclosing `except`. -/
def rerankBody (predict : List (Str × Str) → Except Unit (List ℚ)) (q : Str)
    (filtered : List (Doc × ℚ)) (f : Filters) (cfg : Cfg) :
    Except Unit (List (ℚ × (Doc × ℚ))) :=
  let chosen := chosenToRerank f filtered cfg.top_m
  if chosen = [] then Except.ok []
  else
    match predict (chosen.map (fun ds => (q, ds.1.page_content))) with
    | Except.error e => Except.error e
    | Except.ok logits =>
      match pySortDescRows (logits.zip chosen) with
      | Except.error e => Except.error e
      | Except.ok sorted =>
        Except.ok (applyInsertFix f (tiersEPC f filtered) cfg.top_k
          (sorted.take cfg.top_k))

/-- `_rerank_with_exact_priority`, including its `except` fallback: on a
reranker error, sort the filtered candidates by boosted score (descending)
and return the `top_k` of that order as `(score, (doc, score))` rows. -/
def rerank_with_exact_priority (predict : List (Str × Str) → Except Unit (List ℚ)) (q : Str)
    (filtered : List (Doc × ℚ)) (f : Filters) (cfg : Cfg) : List (ℚ × (Doc × ℚ)) :=
  match rerankBody predict q filtered f cfg with
  | Except.ok res => res
  | Except.error _ =>
    ((sortByDesc (fun ds => ds.2) filtered).take cfg.top_k).map (fun ds => (ds.2, ds))

/-! ## Pipeline orchestration (`retrieve` of `hybrid_retriever.py`) -/

/-- The application-section terms of `_find_program_application_docs`. -/
def applicationSectionTerms : List Str :=
  [str (r"application_process"), str (r"admission_process"), str (r"application_deadlines"),
   str (r"documents_required"), str (r"documents_required_for_online_application"),
   str (r"documents_required_for_enrollment"), str (r"application_period"), str (r"application")]

/-- The sort key of `_find_program_application_docs`: the four-boolean tuple
`(process, admission, deadline, document)` encoded as a number so that the
descending numeric order equals Python's descending lexicographic tuple
order. -/
def sectionPriorityKey (d : Doc) : Nat :=
  (if containsSub (docSectionL d) (str (r"application_process")) then 8 else 0) +
    (if containsSub (docSectionL d) (str (r"admission")) then 4 else 0) +
    (if containsSub (docSectionL d) (str (r"deadline")) then 2 else 0) +
    (if containsSub (docSectionL d) (str (r"document")) then 1 else 0)

/-- Deduplication by raw `section` value, preserving order (`seen_sections`). -/
def dedupBySection : List Doc → List Str → List Doc
  | [], _ => []
  | d :: ds, seen =>
    if metaGet d.metadata (str (r"section")) ∈ seen then dedupBySection ds seen
    else d :: dedupBySection ds (metaGet d.metadata (str (r"section")) :: seen)

/-- `_find_program_application_docs`: program-matching documents with an
application-related section (appended once per matching criterion, as in the
source's two separate `append` sites), sorted by section priority and
deduplicated by section. -/
def find_program_application_docs (docs : List Doc) (pn0 : Str) : List Doc :=
  let pn := pyLower pn0
  let collected := docs.flatMap (fun d =>
    if ¬ (pn = docProgramL d ∨ containsSub (docProgramL d) pn = true) then []
    else
      (if applicationSectionTerms.any (fun t => containsSub (docSectionL d) t) then [d] else []) ++
        (if docCategoryL d = str (r"apply") ∧ docSectionL d ≠ [] then [d] else []))
  dedupBySection (sortByDesc sectionPriorityKey collected) []

/-- The `is_apply_query` test of `retrieve`. -/
def isApplyQuery (q : Str) : Bool :=
  containsSub (pyLower q) (str (r"apply")) || containsSub (pyLower q) (str (r"application")) ||
    containsSub (pyLower q) (str (r"admission")) || containsSub (pyLower q) (str (r"how to"))

/-- The special-case short-circuit at the top of `retrieve`: for an
application query with a program, return the direct metadata lookup results
(each with maximal score 1.0), or fall through when it finds nothing. -/
def shortCircuitResult (docs : List Doc) (cfg : Cfg) (q : Str) (f : Filters) :
    Option (List (ℚ × (Doc × ℚ))) :=
  if isApplyQuery q = true ∧ pyReplace f.slug '-' ' ' ≠ [] then
    match find_program_application_docs docs (pyReplace f.slug '-' ' ') with
    | [] => none
    | ds => some ((ds.map (fun d => ((1 : ℚ), (d, (1 : ℚ))))).take cfg.top_k)
  else none

/-- The enhanced query text: append the de-hyphenated slug when it is not
already contained in the lowercased query. -/
def enhancedQueryText (q : Str) (f : Filters) : Str :=
  if f.slug ≠ [] ∧ containsSub (pyLower q) (pyReplace f.slug '-' ' ') = false then
    q ++ [' '] ++ pyReplace f.slug '-' ' '
  else q

/-- `retrieve` of `hybrid_retriever.py`.  The dense and sparse index calls
are injected as fallible functions of the (enhanced) query text and the
configured depth; the single `try/except` around the whole body catches any
of their errors and returns `[]` (the reranker catches its own errors
internally and never raises). -/
def retrieve (docs : List Doc) (cfg : Cfg)
    (denseSearch : Str → Nat → Except Unit (List (Doc × ℚ)))
    (sparseSearch : Str → Nat → Except Unit (List (Doc × ℚ)))
    (predict : List (Str × Str) → Except Unit (List ℚ))
    (q : Str) (f : Filters) : List (ℚ × (Doc × ℚ)) :=
  match shortCircuitResult docs cfg q f with
  | some res => res
  | none =>
    match denseSearch (enhancedQueryText q f) cfg.n_dense with
    | Except.error _ => []
    | Except.ok dense0 =>
      match sparseSearch (enhancedQueryText q f) cfg.n_sparse with
      | Except.error _ => []
      | Except.ok sparse =>
        let dense := dense0.map (fun ds => (ds.1, 1 - ds.2))
        let merged := mergeResults (dense ++ sparse)
        let fb := apply_filters_with_boosting merged f
        if fb = [] then [] else rerank_with_exact_priority predict q fb f cfg

/-- Configuration used by the concrete witnesses (source defaults of the
hybrid retriever). -/
def cfg6 : Cfg := ⟨10, 10, 12, 8, -5⟩

/-- The always-succeeding cross-encoder of the concrete C7 instances. -/
def pOK : List (Str × Str) → Except Unit (List ℚ) := fun ps => Except.ok (ps.map (fun _ => 1))

/-- C8 counterexample filters: program filter only, no category filter. -/
def f8 : Filters := ⟨str (r"math"), [], []⟩

/-- C8 counterexample candidates: three `info` chunks and one `apply` chunk
of the same (exactly matching) program. -/
def dM1 : Doc := ⟨[(str (r"program"), str (r"math")), (str (r"category"), str (r"info"))], str (r"a"), 0⟩

/-- Second `info` candidate. -/
def dM2 : Doc := ⟨[(str (r"program"), str (r"math")), (str (r"category"), str (r"info"))], str (r"b"), 1⟩

/-- Third `info` candidate. -/
def dM3 : Doc := ⟨[(str (r"program"), str (r"math")), (str (r"category"), str (r"info"))], str (r"c"), 2⟩

/-- The `apply` candidate that the claim expects to be promoted. -/
def dMA : Doc := ⟨[(str (r"program"), str (r"math")), (str (r"category"), str (r"apply"))], str (r"d"), 3⟩

/-- Pre-rerank candidates of the C8 counterexample. -/
def filtered8 : List (Doc × ℚ) := [(dM1, 1), (dM2, 1), (dM3, 1), (dMA, 1)]

/-- A deterministic reranker ranking the three `info` chunks above the
`apply` chunk. -/
def predict8 : List (Str × Str) → Except Unit (List ℚ) :=
  fun ps => Except.ok (ps.map (fun p =>
    if p.2 = str (r"a") then (9 : ℚ)
    else if p.2 = str (r"b") then 8
    else if p.2 = str (r"c") then 7
    else 0))

/-- C8 witness data: a superstring-program `apply` chunk ranked first. -/
def dSuper : Doc :=
  ⟨[(str (r"program"), str (r"mathematics")), (str (r"category"), str (r"apply"))], str (r"s"), 4⟩

/-- C8 witness pre-rerank candidates. -/
def filteredW : List (Doc × ℚ) := [(dSuper, 2), (d9, 1)]

/-- C8 witness configuration (`top_m = 1` keeps the exact match out of the
reranked tier so the top-3 check fails). -/
def cfg8 : Cfg := ⟨10, 10, 1, 8, -5⟩

/-! ## `_enhanced_rerank` of `improved_hybrid_retriever.py` -/

/-- The `final_results` loop of `_enhanced_rerank`: combine each logit with
`enhanced_score * 0.1` and keep the rows meeting `min_rerank_score`. -/
def enhancedFinals (logits : List ℚ) (candidates : List (Doc × ℚ)) (cfg : Cfg) :
    List (ℚ × (Doc × ℚ)) :=
  (logits.zip candidates).filterMap (fun lz =>
    if cfg.min_rerank_score ≤ lz.1 + lz.2.2 * 0.1 then
      some (lz.1 + lz.2.2 * 0.1, lz.2) else none)

/-- The `try` body of `_enhanced_rerank`: score the top `top_m` candidates,
combine `logit + enhanced_score * 0.1`, drop every row with a combined score
below `min_rerank_score`, then the fallible `final_results.sort(reverse=True)`
(which raises on a combined-score tie between field-unequal `Document`s) and
truncation to `top_k`. -/
def enhancedRerankBody (predict : List (Str × Str) → Except Unit (List ℚ)) (q : Str)
    (filtered : List (Doc × ℚ)) (cfg : Cfg) : Except Unit (List (ℚ × (Doc × ℚ))) :=
  let candidates := filtered.take cfg.top_m
  if candidates = [] then Except.ok []
  else
    match predict (candidates.map (fun ds => (q, ds.1.page_content))) with
    | Except.error e => Except.error e
    | Except.ok logits =>
      match pySortDescRows (enhancedFinals logits candidates cfg) with
      | Except.error e => Except.error e
      | Except.ok sorted => Except.ok (sorted.take cfg.top_k)

/-- `_enhanced_rerank` with its `except` fallback to the boosted order. -/
def enhanced_rerank (predict : List (Str × Str) → Except Unit (List ℚ)) (q : Str)
    (filtered : List (Doc × ℚ)) (cfg : Cfg) : List (ℚ × (Doc × ℚ)) :=
  match enhancedRerankBody predict q filtered cfg with
  | Except.ok res => res
  | Except.error _ =>
    ((sortByDesc (fun ds => ds.2) filtered).take cfg.top_k).map (fun ds => (ds.2, ds))

/-- A succeeding reranker that returns logit -10 for every pair. -/
def predictLow : List (Str × Str) → Except Unit (List ℚ) :=
  fun ps => Except.ok (ps.map (fun _ => (-10 : ℚ)))

/-- Configuration of the C10 concrete instance (`top_k = 2`,
`min_rerank_score = -5`, the source default threshold). -/
def cfg10 : Cfg := ⟨10, 10, 20, 2, -5⟩

/-! ## String-primitive lemmas and C1 (the deadline override) -/

theorem isPrefixOfCL_iff (p : Str) : ∀ h : Str, isPrefixOfCL p h = true ↔ ∃ t, h = p ++ t := by
  induction p with
  | nil =>
    intro h
    simp [isPrefixOfCL]
  | cons a as ih =>
    intro h
    cases h with
    | nil =>
      simp [isPrefixOfCL]
    | cons b bs =>
      simp only [isPrefixOfCL, Bool.and_eq_true, decide_eq_true_eq, ih, List.cons_append]
      constructor
      · rintro ⟨rfl, t, rfl⟩
        exact ⟨t, rfl⟩
      · rintro ⟨t, ht⟩
        injection ht with h1 h2
        exact ⟨h1.symm, t, h2⟩

theorem containsSub_iff (h p : Str) : containsSub h p = true ↔ ∃ a b, h = a ++ p ++ b := by
  induction h with
  | nil =>
    simp only [containsSub, isPrefixOfCL_iff]
    constructor
    · rintro ⟨t, ht⟩
      exact ⟨[], t, by simpa using ht⟩
    · rintro ⟨a, b, hab⟩
      obtain ⟨hap, hb⟩ := List.append_eq_nil.1 hab.symm
      obtain ⟨ha, hp⟩ := List.append_eq_nil.1 hap
      exact ⟨[], by simp [hp]⟩
  | cons c t ih =>
    simp only [containsSub, Bool.or_eq_true, isPrefixOfCL_iff, ih]
    constructor
    · rintro (⟨u, hu⟩ | ⟨a, b, hab⟩)
      · exact ⟨[], u, by simpa using hu⟩
      · exact ⟨c :: a, b, by simp [hab]⟩
    · rintro ⟨a, b, hab⟩
      cases a with
      | nil =>
        exact Or.inl ⟨b, by simpa using hab⟩
      | cons x a' =>
        injection hab with h1 h2
        exact Or.inr ⟨a', b, h2⟩

theorem containsSub_self (s : Str) : containsSub s s = true :=
  (containsSub_iff s s).2 ⟨[], [], by simp⟩

theorem containsSub_dropWhileWS (p : Str) (hp : p ≠ []) (hw : ∀ c ∈ p, isWS c = false) :
    ∀ (a b h : Str), h = a ++ p ++ b → ∃ a', h.dropWhile isWS = a' ++ p ++ b := by
  intro a
  induction a with
  | nil =>
    intro b h hh
    obtain ⟨c, p', rfl⟩ := List.exists_cons_of_ne_nil hp
    refine ⟨[], ?_⟩
    subst hh
    simp only [List.nil_append, List.cons_append, List.dropWhile_cons]
    rw [hw c (by simp)]
    simp
  | cons x a' ih =>
    intro b h hh
    subst hh
    simp only [List.cons_append, List.dropWhile_cons]
    by_cases hx : isWS x = true
    · rw [hx]
      simpa using ih b _ rfl
    · rw [Bool.not_eq_true] at hx
      rw [hx]
      exact ⟨x :: a', by simp⟩

theorem containsSub_pyStrip (h p : Str) (hp : p ≠ []) (hw : ∀ c ∈ p, isWS c = false)
    (hc : containsSub h p = true) : containsSub (pyStrip h) p = true := by
  obtain ⟨a, b, rfl⟩ := (containsSub_iff h p).1 hc
  obtain ⟨a', hd⟩ := containsSub_dropWhileWS p hp hw a b _ rfl
  have hrev : (List.dropWhile isWS (a ++ p ++ b)).reverse = b.reverse ++ p.reverse ++ a'.reverse := by
    rw [hd]
    simp [List.reverse_append, List.append_assoc]
  have hp' : p.reverse ≠ [] := by simpa using hp
  have hw' : ∀ c ∈ p.reverse, isWS c = false := by
    intro c hcm
    exact hw c (List.mem_reverse.1 hcm)
  obtain ⟨b', hd2⟩ := containsSub_dropWhileWS p.reverse hp' hw' b.reverse a'.reverse
    ((List.dropWhile isWS (a ++ p ++ b)).reverse) hrev
  refine (containsSub_iff _ p).2 ⟨a', b'.reverse, ?_⟩
  unfold pyStrip
  rw [hd2]
  simp [List.reverse_append, List.append_assoc]

theorem extract_temporal_keywords_ne_nil (ql : Str)
    (h : containsSub ql (str (r"deadline")) = true) : extract_temporal_keywords ql ≠ [] := by
  have hm : str (r"deadline") ∈ extract_temporal_keywords ql :=
    List.mem_filter.2 ⟨by decide, h⟩
  exact List.ne_nil_of_mem hm

/-- C1: for every query string whose lowercase form contains the word
"deadline", `enhanced_parse_query` returns an intent with category `"apply"`
and intent type `"specific"`, regardless of which other category keywords
occur in the query (the override of step 5 rewrites whatever
`_detect_semantic_intent` chose). -/
theorem claim_C1 (q : Str) (h : containsSub (pyLower q) (str (r"deadline")) = true) :
    (enhanced_parse_query q).category = str (r"apply") ∧
      (enhanced_parse_query q).intent_type = str (r"specific") := by
  have hq : containsSub (pyStrip (pyLower q)) (str (r"deadline")) = true :=
    containsSub_pyStrip (pyLower q) (str (r"deadline")) (by decide) (by decide) h
  have ht : extract_temporal_keywords (pyStrip (pyLower q)) ≠ [] :=
    extract_temporal_keywords_ne_nil _ hq
  simp only [enhanced_parse_query]
  rw [if_pos (And.intro ht hq)]
  exact ⟨rfl, rfl⟩

/-- C1 witness: a concrete query that also contains `info` and `keydata`
keywords (`curriculum`, `cost`) still resolves to `apply`/`specific`. -/
theorem claim_C1_witness :
    containsSub (pyLower (str (r"What does the curriculum cost and when is the deadline?")))
        (str (r"deadline")) = true ∧
      (enhanced_parse_query (str (r"What does the curriculum cost and when is the deadline?"))).category =
        str (r"apply") ∧
      (enhanced_parse_query (str (r"What does the curriculum cost and when is the deadline?"))).intent_type =
        str (r"specific") :=
  ⟨by decide, claim_C1 _ (by decide)⟩

/-! ## C2: the fusion merger -/

theorem lookupKey_setKey_self {α : Type} (k : Key) (v : α) (m : List (Key × α)) :
    lookupKey k (setKey k v m) = some v := by
  induction m with
  | nil => simp [setKey, lookupKey]
  | cons e rest ih =>
    obtain ⟨k', v'⟩ := e
    by_cases h : k' = k
    · simp [setKey, h, lookupKey]
    · simp [setKey, h, lookupKey, ih]

theorem lookupKey_setKey_ne {α : Type} (k k' : Key) (v : α) (m : List (Key × α))
    (h : k' ≠ k) : lookupKey k' (setKey k v m) = lookupKey k' m := by
  have h' : k ≠ k' := fun he => h he.symm
  induction m with
  | nil => simp [setKey, lookupKey, h']
  | cons e rest ih =>
    obtain ⟨k₁, v₁⟩ := e
    by_cases h1 : k₁ = k
    · subst h1
      simp [setKey, lookupKey, h']
    · simp only [setKey, if_neg h1, lookupKey]
      by_cases h2 : k₁ = k'
      · simp [h2]
      · simp [h2, ih]

theorem mem_keys_setKey {α : Type} (k k' : Key) (v : α) (m : List (Key × α)) :
    k' ∈ (setKey k v m).map Prod.fst ↔ k' = k ∨ k' ∈ m.map Prod.fst := by
  induction m with
  | nil => simp [setKey]
  | cons e rest ih =>
    obtain ⟨k₁, v₁⟩ := e
    by_cases h1 : k₁ = k
    · subst h1
      simp [setKey]
    · simp only [setKey, if_neg h1, List.map_cons, List.mem_cons, ih]
      tauto

theorem nodup_keys_setKey {α : Type} (k : Key) (v : α) (m : List (Key × α))
    (h : (m.map Prod.fst).Nodup) : ((setKey k v m).map Prod.fst).Nodup := by
  induction m with
  | nil => simp [setKey]
  | cons e rest ih =>
    obtain ⟨k₁, v₁⟩ := e
    simp only [List.map_cons, List.nodup_cons] at h
    by_cases h1 : k₁ = k
    · subst h1
      simpa [setKey] using h
    · simp only [setKey, if_neg h1, List.map_cons, List.nodup_cons]
      refine ⟨?_, ih h.2⟩
      rw [mem_keys_setKey]
      push_neg
      exact ⟨h1, h.1⟩

theorem mergeStep_inv (g : Key → List ℚ) (m : List (Key × (Doc × ℚ))) (x : Doc × ℚ)
    (h : MergeInv g m) :
    MergeInv (fun k => g k ++ (if docKey x.1 = k then [x.2] else [])) (mergeStep m x) := by
  obtain ⟨xd, xs⟩ := x
  obtain ⟨hnd, hk⟩ := h
  refine ⟨?_, fun k => ?_⟩
  · cases hl : lookupKey (docKey (xd, xs).1) m with
    | none =>
      simpa [mergeStep, hl] using nodup_keys_setKey _ (xd, xs) m hnd
    | some prev =>
      by_cases hlt : prev.2 < (xd, xs).2
      · simpa [mergeStep, hl, hlt] using nodup_keys_setKey _ (xd, xs) m hnd
      · simpa [mergeStep, hl, hlt] using hnd
  · dsimp only
    by_cases hkk : docKey xd = k
    · subst hkk
      rw [if_pos rfl]
      cases hl : lookupKey (docKey xd) m with
      | none =>
        have hms : mergeStep m (xd, xs) = setKey (docKey xd) (xd, xs) m := by
          simp [mergeStep, hl]
        have hg : g (docKey xd) = [] := by
          by_contra hne
          have h2 := (hk (docKey xd)).2 hne
          rw [hl] at h2
          simp at h2
        constructor
        · intro d s hds
          rw [hms, lookupKey_setKey_self] at hds
          injection hds with h2
          injection h2 with h3 h4
          subst h3
          subst h4
          rw [hg]
          exact ⟨by simp, by simp⟩
        · intro _
          rw [hms, lookupKey_setKey_self]
          rfl
      | some prev =>
        obtain ⟨pd, ps⟩ := prev
        have hmax := (hk (docKey xd)).1 pd ps hl
        by_cases hlt : ps < xs
        · have hms : mergeStep m (xd, xs) = setKey (docKey xd) (xd, xs) m := by
            simp [mergeStep, hl, hlt]
          constructor
          · intro d s hds
            rw [hms, lookupKey_setKey_self] at hds
            injection hds with h2
            injection h2 with h3 h4
            subst h3
            subst h4
            constructor
            · simp
            · intro s' hs'
              rcases List.mem_append.1 hs' with hs' | hs'
              · exact le_of_lt (lt_of_le_of_lt (hmax.2 s' hs') hlt)
              · simp at hs'
                exact le_of_eq hs'
          · intro _
            rw [hms, lookupKey_setKey_self]
            rfl
        · have hms : mergeStep m (xd, xs) = m := by
            simp [mergeStep, hl, hlt]
          constructor
          · intro d s hds
            rw [hms] at hds
            rw [hds] at hl
            injection hl with h2
            injection h2 with h3 h4
            subst h3
            subst h4
            constructor
            · exact List.mem_append_left _ hmax.1
            · intro s' hs'
              rcases List.mem_append.1 hs' with hs' | hs'
              · exact hmax.2 s' hs'
              · simp at hs'
                subst hs'
                exact le_of_not_lt hlt
          · intro _
            rw [hms, hl]
            rfl
    · have hkk' : k ≠ docKey xd := fun he => hkk he.symm
      rw [if_neg hkk, List.append_nil]
      have hsame : lookupKey k (mergeStep m (xd, xs)) = lookupKey k m := by
        cases hl : lookupKey (docKey (xd, xs).1) m with
        | none =>
          simp only [mergeStep, hl]
          exact lookupKey_setKey_ne _ _ _ _ hkk'
        | some prev =>
          by_cases hlt : prev.2 < (xd, xs).2
          · simp only [mergeStep, hl, if_pos hlt]
            exact lookupKey_setKey_ne _ _ _ _ hkk'
          · simp only [mergeStep, hl, if_neg hlt]
      rw [hsame]
      exact hk k

theorem mergeFold_inv :
    ∀ (l : List (Doc × ℚ)) (g : Key → List ℚ) (m : List (Key × (Doc × ℚ))),
      MergeInv g m → MergeInv (fun k => g k ++ submittedScores l k) (l.foldl mergeStep m) := by
  intro l
  induction l with
  | nil =>
    intro g m h
    have heq : (fun k => g k ++ submittedScores [] k) = g := by
      funext k
      simp [submittedScores]
    rw [heq]
    simpa using h
  | cons x t ih =>
    intro g m h
    have hrec := ih _ _ (mergeStep_inv g m x h)
    have heq : (fun k => (g k ++ if docKey x.1 = k then [x.2] else []) ++ submittedScores t k) =
        (fun k => g k ++ submittedScores (x :: t) k) := by
      funext k
      by_cases hkk : docKey x.1 = k
      · simp [submittedScores, List.filter_cons, hkk, List.append_assoc]
      · simp [submittedScores, List.filter_cons, hkk]
    rw [heq] at hrec
    simpa using hrec

/-- C2: the fusion merger produces at most one entry per chunk identity
(the id string when present and non-empty, else the per-query object
address); a looked-up entry's score is one of the submitted scores for that
identity and an upper bound of all of them (hence their maximum); and any
identity with at least one submission is present.  In particular, submitting
the same chunk twice with different scores leaves one entry carrying the
larger score. -/
theorem claim_C2 (l : List (Doc × ℚ)) (k : Key) :
    ((mergeResults l).map Prod.fst).Nodup ∧
      (∀ d s, lookupKey k (mergeResults l) = some (d, s) →
        s ∈ submittedScores l k ∧ ∀ s' ∈ submittedScores l k, s' ≤ s) ∧
      (submittedScores l k ≠ [] → (lookupKey k (mergeResults l)).isSome = true) := by
  have hbase : MergeInv (fun _ => []) [] := by
    refine ⟨by simp, fun k' => ⟨?_, ?_⟩⟩
    · intro d s hds
      simp [lookupKey] at hds
    · intro hne
      simp at hne
  have h := mergeFold_inv l (fun _ => []) [] hbase
  have heq : (fun k' => ([] : List ℚ) ++ submittedScores l k') = fun k' => submittedScores l k' := by
    funext k'
    simp
  rw [heq] at h
  exact ⟨h.1, (h.2 k).1, (h.2 k).2⟩

/-- C2 witness: the same chunk submitted with scores 1 and 3 yields one
entry with score 3, an upper bound of all submitted scores. -/
theorem claim_C2_witness :
    lookupKey (Sum.inl (str (r"a"))) (mergeResults [(wDocA, 1), (wDocA, 3)]) =
        some (wDocA, 3) ∧
      ((3 : ℚ) ∈ submittedScores [(wDocA, 1), (wDocA, 3)] (Sum.inl (str (r"a"))) ∧
        ∀ s' ∈ submittedScores [(wDocA, 1), (wDocA, 3)] (Sum.inl (str (r"a"))), s' ≤ 3) :=
  ⟨by decide, (claim_C2 [(wDocA, 1), (wDocA, 3)] (Sum.inl (str (r"a")))).2.1 wDocA 3 (by decide)⟩

/-! ## C3: pass-through with no active filters -/

theorem okPair_no_filters (f : Filters) (hf1 : f.slug = []) (hf2 : f.category = [])
    (d : Doc) (hd : d.metadata ≠ []) : okPair f d = (true, 1) := by
  have hp : programQuality f d = 0 := by
    simp [programQuality, hf1]
  simp [okPair, hd, hp, hf1, hf2]

theorem strict_all_pass (f : Filters) (hf1 : f.slug = []) (hf2 : f.category = []) :
    ∀ l : List (Doc × ℚ), (∀ ds ∈ l, ds.1.metadata ≠ []) →
      l.filterMap (strictEntry f) = l := by
  intro l
  induction l with
  | nil => intro _; rfl
  | cons ds t ih =>
    intro h
    have hd : ds.1.metadata ≠ [] := h ds (by simp)
    have hok := okPair_no_filters f hf1 hf2 ds.1 hd
    have hentry : strictEntry f ds = some ds := by
      rw [strictEntry, hok]
      simp
    rw [List.filterMap_cons, hentry, ih (fun x hx => h x (by simp [hx]))]

/-- C3: with no program filter and no category filter, the Filter/Booster
keeps every merged candidate with its fused score unchanged (boost factor
1.0); the output is a permutation (a stable score-descending reordering) of
the input candidates.  The hypothesis that every candidate carries a
non-empty metadata mapping is the corpus data-model invariant (every chunk
has at least `program`, `slug`, `category`, `section` metadata); the source
rejects a bare candidate without metadata even when no filter is active. -/
theorem claim_C3 (merged : List (Key × (Doc × ℚ))) (f : Filters)
    (hf1 : f.slug = []) (hf2 : f.category = [])
    (hmeta : ∀ kv ∈ merged, (kv.2).1.metadata ≠ []) :
    (apply_filters_with_boosting merged f).Perm (merged.map (fun kv => kv.2)) := by
  have hvals : ∀ ds ∈ merged.map (fun kv => kv.2), ds.1.metadata ≠ [] := by
    intro ds hds
    obtain ⟨kv, hkv, rfl⟩ := List.mem_map.1 hds
    exact hmeta kv hkv
  have hstrict := strict_all_pass f hf1 hf2 (merged.map (fun kv => kv.2)) hvals
  simp only [apply_filters_with_boosting, hstrict, hf1]
  rw [if_neg (by simp)]
  exact List.perm_insertionSort _ _

/-- C3 witness: two candidates with empty filters are both kept with
unchanged scores (up to the stable descending reorder). -/
theorem claim_C3_witness :
    (apply_filters_with_boosting [(Sum.inr 0, (wDocA, 2)), (Sum.inr 1, (wDocB, 5))]
        ⟨[], [], []⟩).Perm [(wDocA, 2), (wDocB, 5)] :=
  claim_C3 [(Sum.inr 0, (wDocA, 2)), (Sum.inr 1, (wDocB, 5))] ⟨[], [], []⟩ rfl rfl
    (by
      intro kv hkv
      rcases List.mem_cons.1 hkv with rfl | hkv
      · simp [wDocA]
      · rcases List.mem_cons.1 hkv with rfl | hkv
        · simp [wDocB]
        · simp at hkv)

/-! ## C9 and C4: the boost factor and its monotonicity -/

theorem programQuality_nonneg (f : Filters) (d : Doc) : 0 ≤ programQuality f d := by
  rw [programQuality]
  split_ifs <;> try norm_num
  positivity

theorem programQuality_le_one (f : Filters) (d : Doc) : programQuality f d ≤ 1 := by
  rw [programQuality]
  split_ifs with h1 h2 h3 h4 <;> try norm_num
  have hlen : ((pySplitWS (slugQueryF f)).filter
      (fun t => containsSub (docProgramL d) t)).length ≤ (pySplitWS (slugQueryF f)).length :=
    List.length_filter_le _ _
  have hpos : 0 < (pySplitWS (slugQueryF f)).length := by
    obtain ⟨t, ht, _⟩ := List.any_eq_true.1 h4
    exact List.length_pos.2 (List.ne_nil_of_mem ht)
  have h1q : (((pySplitWS (slugQueryF f)).filter
      (fun t => containsSub (docProgramL d) t)).length : ℚ) /
      ((pySplitWS (slugQueryF f)).length : ℚ) ≤ 1 := by
    rw [div_le_one (by exact_mod_cast hpos)]
    exact_mod_cast hlen
  nlinarith

theorem categoryQuality_nonneg (f : Filters) (d : Doc) : 0 ≤ categoryQuality f d := by
  rw [categoryQuality]
  split_ifs <;> norm_num

theorem categoryQuality_le_one (f : Filters) (d : Doc) : categoryQuality f d ≤ 1 := by
  rw [categoryQuality]
  split_ifs <;> norm_num

theorem categoryQuality_le_of_not_mem (f : Filters) (d : Doc)
    (h : docCategoryL d ∉ wantedSet f) : categoryQuality f d ≤ 0.8 := by
  rw [categoryQuality]
  split_ifs with h1 h2 <;> try norm_num
  exact absurd h2.2 h

theorem matchQuality_bounds (f : Filters) (d : Doc) :
    0 ≤ matchQuality f d ∧ matchQuality f d ≤ 2.5 := by
  have hp0 := programQuality_nonneg f d
  have hp1 := programQuality_le_one f d
  have hc0 := categoryQuality_nonneg f d
  have hc1 := categoryQuality_le_one f d
  rw [matchQuality]
  split_ifs <;> constructor <;> nlinarith

/-- C9 (amended): a candidate kept by `ok` under active filters receives the
boost factor `1.0 + quality * 2.0`, and this factor lies in `[1.0, 6.0]`
(the claimed upper bound 4.0 is wrong: an exact program plus exact category
match has quality `1*1.5 + 1 = 2.5`, hence boost `6.0`). -/
theorem claim_C9 (f : Filters) (d : Doc) (hactive : f.slug ≠ [] ∨ f.category ≠ [])
    (hkept : (okPair f d).1 = true) :
    (okPair f d).2 = 1 + matchQuality f d * 2 ∧
      1 ≤ (okPair f d).2 ∧ (okPair f d).2 ≤ 6 := by
  have hmq := matchQuality_bounds f d
  have hobr : okPair f d = (true, 1 + matchQuality f d * 2) := by
    rw [okPair] at hkept ⊢
    split_ifs at hkept ⊢ with h1 h2
    · rfl
  rw [hobr]
  refine ⟨rfl, ?_, ?_⟩
  · show (1 : ℚ) ≤ 1 + matchQuality f d * 2
    linarith [hmq.1]
  · show (1 + matchQuality f d * 2 : ℚ) ≤ 6
    linarith [hmq.2]

theorem okPair_f9_d9 : okPair f9 d9 = (true, 6) := by
  have h1 : programQuality f9 d9 = 1 := by
    rw [programQuality, if_pos (by decide : f9.slug ≠ []),
      if_pos (by decide : slugQueryF f9 = docSlugL d9 ∨ slugQueryF f9 = docProgramL d9)]
  have h2 : categoryQuality f9 d9 = 1 := by
    rw [categoryQuality, if_pos (by decide : f9.category ≠ []),
      if_pos (by decide : docCategoryL d9 ≠ [] ∧ docCategoryL d9 ∈ wantedSet f9)]
  have h3 : matchQuality f9 d9 = 2.5 := by
    rw [matchQuality, h1, h2]
    norm_num
  rw [okPair, h1, h3, if_neg (by decide : ¬(d9.metadata = [])),
    if_pos (Or.inl (by norm_num : (1 : ℚ) > 0))]
  norm_num

/-- C9 counterexample: an exact program plus exact category match is kept
with boost factor 6.0, outside the claimed interval `[1.0, 4.0]`. -/
theorem claim_C9_counterexample :
    (okPair f9 d9).1 = true ∧ ¬ ((okPair f9 d9).2 ≤ 4) := by
  rw [okPair_f9_d9]
  norm_num

/-- C9 witness: the amended bound applied at the concrete instance. -/
theorem claim_C9_witness :
    (okPair f9 d9).2 = 1 + matchQuality f9 d9 * 2 ∧
      1 ≤ (okPair f9 d9).2 ∧ (okPair f9 d9).2 ≤ 6 :=
  claim_C9 f9 d9 (Or.inl (by decide)) (by rw [okPair_f9_d9])

/-- C4: with both filters active and a fused score `s > 0`, a candidate
matching the program exactly and the category exactly gets a strictly
higher boosted score than an otherwise identical candidate (same slug,
program, section and body text, same fused score) whose category does not
match the wanted set. -/
theorem claim_C4 (f : Filters) (d1 d2 : Doc) (s : ℚ) (hs : 0 < s)
    (hslug : f.slug ≠ []) (hcat : f.category ≠ [])
    (hprog1 : slugQueryF f = docSlugL d1 ∨ slugQueryF f = docProgramL d1)
    (hcat1 : docCategoryL d1 ≠ [] ∧ docCategoryL d1 ∈ wantedSet f)
    (hslug2 : docSlugL d2 = docSlugL d1) (hprog2 : docProgramL d2 = docProgramL d1)
    (hsec2 : docSectionL d2 = docSectionL d1) (hpc2 : d2.page_content = d1.page_content)
    (hcat2 : docCategoryL d2 ∉ wantedSet f) :
    (okPair f d1).1 = true ∧ (okPair f d2).1 = true ∧
      s * (okPair f d2).2 < s * (okPair f d1).2 := by
  have hpq1 : programQuality f d1 = 1 := by
    rw [programQuality, if_pos hslug, if_pos hprog1]
  have hprogd2 : slugQueryF f = docSlugL d2 ∨ slugQueryF f = docProgramL d2 := by
    rw [hslug2, hprog2]
    exact hprog1
  have hpq2 : programQuality f d2 = 1 := by
    rw [programQuality, if_pos hslug, if_pos hprogd2]
  have hcq1 : categoryQuality f d1 = 1 := by
    rw [categoryQuality, if_pos hcat, if_pos hcat1]
  have hcq2u : categoryQuality f d2 ≤ 0.8 := categoryQuality_le_of_not_mem f d2 hcat2
  have hcq2l : 0 ≤ categoryQuality f d2 := categoryQuality_nonneg f d2
  have hmq1 : matchQuality f d1 = 2.5 := by
    rw [matchQuality, hpq1, hcq1]
    norm_num
  have hmq2 : matchQuality f d2 ≤ 2.3 := by
    rw [matchQuality, hpq2]
    split_ifs <;> linarith
  have hm1 : d1.metadata ≠ [] := by
    intro hnil
    apply hcat1.1
    rw [docCategoryL, hnil]
    rfl
  have hsqne : slugQueryF f ≠ [] := by
    intro h0
    apply hslug
    have hlen := congrArg List.length h0
    simp only [slugQueryF, pyReplace, pyLower, List.length_map, List.length_nil] at hlen
    exact List.length_eq_zero.1 hlen
  have hm2 : d2.metadata ≠ [] := by
    intro hnil
    rcases hprogd2 with h | h
    · apply hsqne
      rw [h, docSlugL, hnil]
      rfl
    · apply hsqne
      rw [h, docProgramL, hnil]
      rfl
  have hok1 : okPair f d1 = (true, 6) := by
    rw [okPair, hpq1, hmq1, if_neg hm1, if_pos (Or.inl (by norm_num : (1 : ℚ) > 0))]
    norm_num
  have hok2 : okPair f d2 = (true, 1 + matchQuality f d2 * 2) := by
    rw [okPair, hpq2, if_neg hm2, if_pos (Or.inl (by norm_num : (1 : ℚ) > 0))]
  refine ⟨by rw [hok1], by rw [hok2], ?_⟩
  rw [hok1, hok2]
  show s * (1 + matchQuality f d2 * 2) < s * 6
  have hb : (1 + matchQuality f d2 * 2 : ℚ) < 6 := by linarith
  exact mul_lt_mul_of_pos_left hb hs

/-- C4 witness: at score 1, the `apply`-categorized exact match beats the
otherwise identical `info`-categorized one. -/
theorem claim_C4_witness :
    (okPair f9 d9).1 = true ∧ (okPair f9 d9i).1 = true ∧
      1 * (okPair f9 d9i).2 < 1 * (okPair f9 d9).2 :=
  claim_C4 f9 d9 d9i 1 (by decide) (by decide) (by decide) (by decide) (by decide)
    (by decide) (by decide) (by decide) (by decide) (by decide)

/-! ## C5: the relaxation fallback -/

/-- C5: when the strict pass keeps nothing and a program filter is active,
the Filter/Booster output is exactly (a stable reorder of) the relaxed
re-scan of all merged candidates; every candidate whose program text
contains a slug-query word longer than 3 characters is kept at 0.8 of its
fused score; if the relaxed scan also keeps nothing the Filter/Booster
returns `[]`, and the pipeline then returns an empty result list instead of
raising. -/
theorem claim_C5 (merged : List (Key × (Doc × ℚ))) (f : Filters)
    (hslug : f.slug ≠ [])
    (hstrict : (merged.map (fun kv => kv.2)).filterMap (strictEntry f) = []) :
    (apply_filters_with_boosting merged f).Perm
        ((merged.map (fun kv => kv.2)).filterMap (relaxEntry f)) ∧
      (∀ kv ∈ merged, ∀ w ∈ pySplitWS (slugQueryF f), 3 < w.length →
        containsSub (docProgramL (kv.2).1) w = true →
        ((kv.2).1, (kv.2).2 * 0.8) ∈ apply_filters_with_boosting merged f) ∧
      ((merged.map (fun kv => kv.2)).filterMap (relaxEntry f) = [] →
        apply_filters_with_boosting merged f = []) ∧
      (∀ (docs : List Doc) (cfg : Cfg)
          (dS sS : Str → Nat → Except Unit (List (Doc × ℚ)))
          (predict : List (Str × Str) → Except Unit (List ℚ)) (q : Str)
          (dense0 sparse : List (Doc × ℚ)),
        shortCircuitResult docs cfg q f = none →
        dS (enhancedQueryText q f) cfg.n_dense = Except.ok dense0 →
        sS (enhancedQueryText q f) cfg.n_sparse = Except.ok sparse →
        mergeResults (dense0.map (fun ds => (ds.1, 1 - ds.2)) ++ sparse) = merged →
        (merged.map (fun kv => kv.2)).filterMap (relaxEntry f) = [] →
        retrieve docs cfg dS sS predict q f = []) := by
  have happ : apply_filters_with_boosting merged f =
      sortByDesc (fun ds => ds.2) ((merged.map (fun kv => kv.2)).filterMap (relaxEntry f)) := by
    simp only [apply_filters_with_boosting]
    rw [hstrict, if_pos (And.intro rfl hslug)]
  refine ⟨?_, ?_, ?_, ?_⟩
  · rw [happ]
    exact List.perm_insertionSort _ _
  · intro kv hkv w hw hlen hcont
    have hwne : w ≠ [] := by
      intro h0
      rw [h0] at hlen
      simp at hlen
    have hmeta : (kv.2).1.metadata ≠ [] := by
      intro hnil
      rw [docProgramL, hnil] at hcont
      obtain ⟨c, w', rfl⟩ := List.exists_cons_of_ne_nil hwne
      simp [metaGet, pyLower, containsSub, isPrefixOfCL] at hcont
    have hany : (pySplitWS (slugQueryF f)).any
        (fun w' => decide (3 < w'.length) && containsSub (docProgramL (kv.2).1) w') = true :=
      List.any_eq_true.2 ⟨w, hw, by rw [hcont]; simp [hlen]⟩
    have hrel : relaxEntry f kv.2 = some ((kv.2).1, (kv.2).2 * 0.8) := by
      rw [relaxEntry, if_neg hmeta, if_pos hany]
    have hmem0 : ((kv.2).1, (kv.2).2 * 0.8) ∈ (merged.map (fun kv => kv.2)).filterMap (relaxEntry f) :=
      List.mem_filterMap.2 ⟨kv.2, List.mem_map.2 ⟨kv, hkv, rfl⟩, hrel⟩
    rw [happ]
    exact ((List.perm_insertionSort _ _).mem_iff).2 hmem0
  · intro hrel
    rw [happ, hrel]
    rfl
  · intro docs cfg dS sS predict q dense0 sparse hsc hd hs hmg hrel
    have hfb : apply_filters_with_boosting merged f = [] := by
      rw [happ, hrel]
      rfl
    rw [← hmg] at hfb
    simp only [retrieve, hsc, hd, hs, hfb]
    simp

/-- C5 witness: a single candidate with an unrelated program under a
program-only filter: the strict pass rejects it, the relaxed pass finds no
shared word, and the Filter/Booster returns `[]`. -/
theorem claim_C5_witness :
    apply_filters_with_boosting [(Sum.inr 1, (wDocB, 1))] ⟨str (r"mathematics"), [], []⟩ = [] :=
  (claim_C5 [(Sum.inr 1, (wDocB, 1))] ⟨str (r"mathematics"), [], []⟩ (by decide)
    (by decide)).2.2.1 (by decide)

/-! ## C6: reranker failure falls back to the boosted order -/

theorem chosenToRerank_ne_nil (f : Filters) (l : List (Doc × ℚ)) (m : Nat)
    (hm : 0 < m) (hl : l ≠ []) : chosenToRerank f l m ≠ [] := by
  have htake : ∀ x : List (Doc × ℚ), x ≠ [] → x.take m ≠ [] := by
    intro x hx h0
    rcases List.take_eq_nil_iff.1 h0 with h | h
    · omega
    · exact hx h
  rw [chosenToRerank]
  split_ifs with h1 h2
  · exact htake _ h1
  · exact htake _ h2
  · push_neg at h1 h2
    apply htake
    rw [tiersOM]
    by_cases hf : hasFilterR f = true
    · rw [if_pos hf]
      obtain ⟨x, hx⟩ := List.exists_mem_of_ne_nil l hl
      rw [tiersEPC, if_pos hf] at h1
      rw [tiersEPM, if_pos hf] at h2
      have h1' := List.filter_eq_nil_iff.1 h1 x hx
      have h2' := List.filter_eq_nil_iff.1 h2 x hx
      have hpm : isPMatch f x.1 = false := by
        cases hcm : isCMatch f x.1 <;> cases hpm0 : isPMatch f x.1 <;> simp_all
      exact List.ne_nil_of_mem (List.mem_filter.2 ⟨hx, by simp [hpm]⟩)
    · rw [if_neg hf]
      exact hl

/-- C6: when the cross-encoder raises on every prediction call, the
reranker returns the `top_k` candidates in stable descending boosted-score
order (no exception escapes: the embedding is a total function into plain
lists), with the order sorted and the length capped at `top_k`.  The
hypothesis `0 < top_m` (source default 12) ensures the prediction call is
actually reached whenever candidates exist. -/
theorem claim_C6 (predict : List (Str × Str) → Except Unit (List ℚ)) (q : Str)
    (filtered : List (Doc × ℚ)) (f : Filters) (cfg : Cfg) (hm : 0 < cfg.top_m)
    (hpred : ∀ ps, predict ps = Except.error ()) :
    rerank_with_exact_priority predict q filtered f cfg =
        ((sortByDesc (fun ds => ds.2) filtered).take cfg.top_k).map (fun ds => (ds.2, ds)) ∧
      List.Pairwise (fun a b : ℚ × (Doc × ℚ) => b.1 ≤ a.1)
        (rerank_with_exact_priority predict q filtered f cfg) ∧
      (rerank_with_exact_priority predict q filtered f cfg).length ≤ cfg.top_k := by
  have hres : rerank_with_exact_priority predict q filtered f cfg =
      ((sortByDesc (fun ds => ds.2) filtered).take cfg.top_k).map (fun ds => (ds.2, ds)) := by
    by_cases hfl : filtered = []
    · subst hfl
      have hch : chosenToRerank f [] cfg.top_m = [] := by
        simp [chosenToRerank, tiersEPC, tiersEPM, tiersOM]
      simp [rerank_with_exact_priority, rerankBody, hch, sortByDesc, List.insertionSort]
    · have hch := chosenToRerank_ne_nil f filtered cfg.top_m hm hfl
      have hbody : rerankBody predict q filtered f cfg = Except.error () := by
        simp only [rerankBody]
        rw [if_neg hch, hpred]
      simp [rerank_with_exact_priority, hbody]
  refine ⟨hres, ?_, ?_⟩
  · rw [hres]
    have hsorted := List.sorted_insertionSort (keyOrd (fun ds : Doc × ℚ => ds.2)) filtered
    exact (List.pairwise_map).2 (List.Pairwise.sublist (List.take_sublist _ _) hsorted)
  · rw [hres, List.length_map]
    exact List.length_take_le _ _

/-- C6 witness: a reranker that always throws, on two unfiltered candidates. -/
theorem claim_C6_witness :
    rerank_with_exact_priority (fun _ => Except.error ()) (str (r"q")) [(wDocA, 2), (wDocB, 5)]
        ⟨[], [], []⟩ cfg6 =
        ((sortByDesc (fun ds : Doc × ℚ => ds.2) [(wDocA, 2), (wDocB, 5)]).take cfg6.top_k).map
          (fun ds => (ds.2, ds)) ∧
      List.Pairwise (fun a b : ℚ × (Doc × ℚ) => b.1 ≤ a.1)
        (rerank_with_exact_priority (fun _ => Except.error ()) (str (r"q"))
          [(wDocA, 2), (wDocB, 5)] ⟨[], [], []⟩ cfg6) ∧
      (rerank_with_exact_priority (fun _ => Except.error ()) (str (r"q"))
          [(wDocA, 2), (wDocB, 5)] ⟨[], [], []⟩ cfg6).length ≤ cfg6.top_k :=
  claim_C6 (fun _ => Except.error ()) (str (r"q")) [(wDocA, 2), (wDocB, 5)] ⟨[], [], []⟩ cfg6
    (by decide) (fun ps => rfl)

/-! ## C7: signal errors are swallowed by the pipeline-wide handler -/

/-- C7 (amended): any error raised by the dense or the sparse index call is
caught by the single `try/except` around the whole of `retrieve`, which
returns an empty result list; the pipeline neither proceeds in degraded mode
with the surviving signal nor propagates a fatal error when both fail. -/
theorem claim_C7 (docs : List Doc) (cfg : Cfg)
    (dS sS : Str → Nat → Except Unit (List (Doc × ℚ)))
    (predict : List (Str × Str) → Except Unit (List ℚ)) (q : Str) (f : Filters)
    (hsc : shortCircuitResult docs cfg q f = none)
    (herr : dS (enhancedQueryText q f) cfg.n_dense = Except.error () ∨
      sS (enhancedQueryText q f) cfg.n_sparse = Except.error ()) :
    retrieve docs cfg dS sS predict q f = [] := by
  simp only [retrieve, hsc]
  rcases herr with h | h
  · rw [h]
  · cases hd : dS (enhancedQueryText q f) cfg.n_dense with
    | error e => rfl
    | ok dense0 => rw [h]

/-- C7 counterexample: with the dense signal failing and the sparse signal
returning a keepable candidate, `retrieve` returns `[]` instead of
proceeding in degraded mode (the same input with a succeeding dense signal
returns that candidate); and with both signals failing, `retrieve` still
returns `[]` instead of propagating a fatal error. -/
theorem claim_C7_counterexample :
    retrieve [] cfg6 (fun _ _ => Except.error ()) (fun _ _ => Except.ok [(wDocB, 1)]) pOK
        (str (r"q")) ⟨[], [], []⟩ = [] ∧
      retrieve [] cfg6 (fun _ _ => Except.error ()) (fun _ _ => Except.error ()) pOK
        (str (r"q")) ⟨[], [], []⟩ = [] ∧
      retrieve [] cfg6 (fun _ _ => Except.ok []) (fun _ _ => Except.ok [(wDocB, 1)]) pOK
        (str (r"q")) ⟨[], [], []⟩ = [(1, (wDocB, 1))] := by
  refine ⟨by decide, by decide, ?_⟩
  have hsc : shortCircuitResult [] cfg6 (str (r"q")) ⟨[], [], []⟩ = none := by decide
  have hm : mergeResults (([] : List (Doc × ℚ)).map (fun ds => (ds.1, 1 - ds.2)) ++
      [(wDocB, (1 : ℚ))]) = [(Sum.inr 1, (wDocB, 1))] := by decide
  have hok : okPair ⟨[], [], []⟩ wDocB = (true, 1) :=
    okPair_no_filters ⟨[], [], []⟩ rfl rfl wDocB (by decide)
  have hse : strictEntry ⟨[], [], []⟩ (wDocB, (1 : ℚ)) = some (wDocB, 1) := by
    rw [strictEntry, hok]
    simp
  have hfb : apply_filters_with_boosting [(Sum.inr 1, (wDocB, 1))] ⟨[], [], []⟩ =
      [(wDocB, 1)] := by
    simp only [apply_filters_with_boosting, List.map_cons, List.map_nil,
      List.filterMap_cons, List.filterMap_nil, hse]
    rw [if_neg (by simp)]
    simp [sortByDesc, List.insertionSort]
  have hrr : rerank_with_exact_priority pOK (str (r"q")) [(wDocB, 1)] ⟨[], [], []⟩ cfg6 =
      [(1, (wDocB, 1))] := by decide
  simp only [retrieve, hsc, hm, hfb]
  rw [if_neg (by decide : ¬([(wDocB, (1 : ℚ))] = []))]
  exact hrr

/-- C7 witness: the amended theorem applied at the dense-failure instance. -/
theorem claim_C7_witness :
    retrieve [] cfg6 (fun _ _ => Except.error ()) (fun _ _ => Except.ok [(wDocB, 1)]) pOK
        (str (r"q")) ⟨[], [], []⟩ = [] :=
  claim_C7 [] cfg6 (fun _ _ => Except.error ()) (fun _ _ => Except.ok [(wDocB, 1)]) pOK
    (str (r"q")) ⟨[], [], []⟩ (by decide) (Or.inl rfl)

/-! ## C8: the priority-insertion guarantee -/

/-- C8 (amended): the insertion guarantee holds when the intent carries a
program filter and the category filter `"apply"` (the tier of exact
program+category matches is built against the *target* category, so without
an active `apply` category filter the insertion step never fires).  Under a
successful reranker call whose reranked rows carry no logit tie between
field-unequal documents (such a tie makes `reranked.sort(reverse=True)`
raise, and the `except` falls back to the boosted order without any
insertion): if some pre-rerank candidate matches the target program exactly
and has category `"apply"`, and no top-3 post-rerank result is an
exact-program `apply` match, then the first `apply`-categorized
program+category match is inserted at the front with score 1.0 and the list
re-truncated to `top_k`, so the returned head is that candidate. -/
theorem claim_C8 (predict : List (Str × Str) → Except Unit (List ℚ)) (q : Str)
    (filtered : List (Doc × ℚ)) (f : Filters) (cfg : Cfg) (logits : List ℚ)
    (hcat : f.category = str (r"apply")) (hslug : slugQueryF f ≠ [])
    (hk : 0 < cfg.top_k) (hm : 0 < cfg.top_m)
    (hex : ∃ ds ∈ filtered, docProgramL ds.1 = slugQueryF f ∧
      docCategoryL ds.1 = str (r"apply"))
    (hpred : predict ((chosenToRerank f filtered cfg.top_m).map
      (fun ds => (q, ds.1.page_content))) = Except.ok logits)
    (hnr : hasRaisingPair (logits.zip (chosenToRerank f filtered cfg.top_m)) = false)
    (htop3 : ∀ r ∈ ((sortRowsDesc
        (logits.zip (chosenToRerank f filtered cfg.top_m))).take cfg.top_k).take 3,
      isTop3ApplyMatch f r.2.1 = false) :
    ∃ ds, (tiersEPC f filtered).find?
        (fun x => decide (docCategoryL x.1 = str (r"apply"))) = some ds ∧
      rerank_with_exact_priority predict q filtered f cfg =
        ((1, ds) :: (sortRowsDesc
          (logits.zip (chosenToRerank f filtered cfg.top_m))).take cfg.top_k).take cfg.top_k ∧
      (rerank_with_exact_priority predict q filtered f cfg).head? = some (1, ds) ∧
      docCategoryL ds.1 = str (r"apply") ∧ isPMatch f ds.1 = true := by
  have htc : targetCategoryF f = str (r"apply") := by
    rw [targetCategoryF, hcat]
    decide
  obtain ⟨dx, hdx, hdxp, hdxc⟩ := hex
  have hmx : isPMatch f dx.1 = true := by
    rw [isPMatch, hdxp]
    simp [hslug, containsSub_self]
  have hmc : isCMatch f dx.1 = true := by
    rw [isCMatch, htc, hdxc]
    simp
    decide
  have hhf : hasFilterR f = true := by
    simp [hasFilterR, hslug]
  have hepc : dx ∈ tiersEPC f filtered := by
    rw [tiersEPC, if_pos hhf]
    exact List.mem_filter.2 ⟨hdx, by simp [hmx, hmc]⟩
  have hepcne : tiersEPC f filtered ≠ [] := List.ne_nil_of_mem hepc
  have hfindSome : ((tiersEPC f filtered).find?
      (fun x => decide (docCategoryL x.1 = str (r"apply")))).isSome = true :=
    List.find?_isSome.2 ⟨dx, hepc, by simp [hdxc]⟩
  obtain ⟨ds, hfind⟩ := Option.isSome_iff_exists.1 hfindSome
  have hdsc : docCategoryL ds.1 = str (r"apply") := by
    have hp := List.find?_some hfind
    exact of_decide_eq_true hp
  have hdsm : ds ∈ tiersEPC f filtered := List.mem_of_find?_eq_some hfind
  have hdsp : isPMatch f ds.1 = true := by
    rw [tiersEPC, if_pos hhf] at hdsm
    have hmem := (List.mem_filter.1 hdsm).2
    simp only [Bool.and_eq_true] at hmem
    exact hmem.1
  have hflne : filtered ≠ [] := List.ne_nil_of_mem hdx
  have hchne : chosenToRerank f filtered cfg.top_m ≠ [] :=
    chosenToRerank_ne_nil f filtered cfg.top_m hm hflne
  have hsort : pySortDescRows (logits.zip (chosenToRerank f filtered cfg.top_m)) =
      Except.ok (sortRowsDesc (logits.zip (chosenToRerank f filtered cfg.top_m))) := by
    rw [pySortDescRows, if_neg (by rw [hnr]; simp)]
  have hbody : rerankBody predict q filtered f cfg =
      Except.ok (applyInsertFix f (tiersEPC f filtered) cfg.top_k
        ((sortRowsDesc
          (logits.zip (chosenToRerank f filtered cfg.top_m))).take cfg.top_k)) := by
    simp only [rerankBody]
    rw [if_neg hchne]
    simp only [hpred, hsort]
  have hany : (((sortRowsDesc
      (logits.zip (chosenToRerank f filtered cfg.top_m))).take cfg.top_k).take 3).any
      (fun r => isTop3ApplyMatch f r.2.1) = false := by
    rw [List.any_eq_false]
    intro r hr
    rw [htop3 r hr]
    simp
  have hfix : applyInsertFix f (tiersEPC f filtered) cfg.top_k
      ((sortRowsDesc
        (logits.zip (chosenToRerank f filtered cfg.top_m))).take cfg.top_k) =
      ((1, ds) :: (sortRowsDesc
        (logits.zip (chosenToRerank f filtered cfg.top_m))).take cfg.top_k).take cfg.top_k := by
    rw [applyInsertFix, if_pos (And.intro (List.length_pos.2 hepcne) hany), hfind]
  have hres : rerank_with_exact_priority predict q filtered f cfg =
      ((1, ds) :: (sortRowsDesc
        (logits.zip (chosenToRerank f filtered cfg.top_m))).take cfg.top_k).take cfg.top_k := by
    simp only [rerank_with_exact_priority, hbody, hfix]
  refine ⟨ds, hfind, hres, ?_, hdsc, hdsp⟩
  obtain ⟨n, hn⟩ : ∃ n, cfg.top_k = n + 1 := ⟨cfg.top_k - 1, by omega⟩
  rw [hres, hn, List.take_succ_cons]
  rfl

/-- C8 counterexample: with no category filter, the pre-rerank candidates
contain an exact program-and-category-`apply` match (`dMA`), none of the top
3 final results is such a match, the reranker succeeded — yet no insertion
happens and the returned head is an `info` chunk, not the `apply` match. -/
theorem claim_C8_counterexample :
    ((dMA, (1 : ℚ)) ∈ filtered8 ∧ isTop3ApplyMatch f8 dMA = true) ∧
      ((rerank_with_exact_priority predict8 (str (r"q")) filtered8 f8 cfg6).take 3).all
        (fun r => !(isTop3ApplyMatch f8 r.2.1)) = true ∧
      (rerank_with_exact_priority predict8 (str (r"q")) filtered8 f8 cfg6).head? =
        some (9, (dM1, 1)) ∧
      isTop3ApplyMatch f8 dM1 = false := by
  decide

/-- C8 witness: the amended insertion guarantee at a concrete instance. -/
theorem claim_C8_witness :
    ∃ ds, (tiersEPC f9 filteredW).find?
        (fun x => decide (docCategoryL x.1 = str (r"apply"))) = some ds ∧
      rerank_with_exact_priority pOK (str (r"q")) filteredW f9 cfg8 =
        ((1, ds) :: (sortRowsDesc
          (([(1 : ℚ)]).zip (chosenToRerank f9 filteredW cfg8.top_m))).take cfg8.top_k).take
          cfg8.top_k ∧
      (rerank_with_exact_priority pOK (str (r"q")) filteredW f9 cfg8).head? = some (1, ds) ∧
      docCategoryL ds.1 = str (r"apply") ∧ isPMatch f9 ds.1 = true :=
  claim_C8 pOK (str (r"q")) filteredW f9 cfg8 [1] rfl (by decide) (by decide) (by decide)
    ⟨(d9, 1), by decide, by decide, by decide⟩ rfl (by decide)
    (by
      intro r hr
      have hl : ((sortRowsDesc
          (([(1 : ℚ)]).zip (chosenToRerank f9 filteredW cfg8.top_m))).take cfg8.top_k).take 3 =
          [(1, (dSuper, 2))] := by decide
      rw [hl] at hr
      rw [List.mem_singleton] at hr
      subst hr
      decide)

/-! ## C10: the minimum combined-score cutoff of the improved reranker -/

/-- C10: on the standard (non-raising) rerank path — a successful
cross-encoder call whose kept rows carry no combined-score tie between
field-unequal documents, a tie making `final_results.sort(reverse=True)`
raise and the `except` fall back to the boosted order — every candidate
whose combined score `logit + 0.1 * boosted` is strictly below
`min_rerank_score` is removed before the `top_k` truncation (every returned
row's score is at least the threshold), and consequently there are inputs
with at least `top_k` candidates and a succeeding reranker for which fewer
than `top_k` results (here: none) are returned. -/
theorem claim_C10 :
    (∀ (predict : List (Str × Str) → Except Unit (List ℚ)) (q : Str)
        (filtered : List (Doc × ℚ)) (cfg : Cfg) (logits : List ℚ),
      predict ((filtered.take cfg.top_m).map (fun ds => (q, ds.1.page_content))) =
          Except.ok logits →
      hasRaisingPair (enhancedFinals logits (filtered.take cfg.top_m) cfg) = false →
      enhanced_rerank predict q filtered cfg =
          ((sortRowsDesc
            (enhancedFinals logits (filtered.take cfg.top_m) cfg)).take cfg.top_k) ∧
        ∀ x ∈ enhanced_rerank predict q filtered cfg, cfg.min_rerank_score ≤ x.1) ∧
      (enhanced_rerank predictLow (str (r"q")) [(wDocA, 1), (wDocB, 1)] cfg10 = [] ∧
        cfg10.top_k ≤ ([(wDocA, (1 : ℚ)), (wDocB, 1)] : List (Doc × ℚ)).length ∧
        0 < cfg10.top_k) := by
  have hmain : ∀ (predict : List (Str × Str) → Except Unit (List ℚ)) (q : Str)
      (filtered : List (Doc × ℚ)) (cfg : Cfg) (logits : List ℚ),
      predict ((filtered.take cfg.top_m).map (fun ds => (q, ds.1.page_content))) =
          Except.ok logits →
      hasRaisingPair (enhancedFinals logits (filtered.take cfg.top_m) cfg) = false →
      enhanced_rerank predict q filtered cfg =
          ((sortRowsDesc
            (enhancedFinals logits (filtered.take cfg.top_m) cfg)).take cfg.top_k) := by
    intro predict q filtered cfg logits hpred hnr
    by_cases hc : filtered.take cfg.top_m = []
    · have hbody : enhancedRerankBody predict q filtered cfg = Except.ok [] := by
        simp only [enhancedRerankBody]
        rw [if_pos hc]
      simp [enhanced_rerank, hbody, hc, enhancedFinals, sortRowsDesc, List.insertionSort]
    · have hsort : pySortDescRows (enhancedFinals logits (filtered.take cfg.top_m) cfg) =
          Except.ok (sortRowsDesc (enhancedFinals logits (filtered.take cfg.top_m) cfg)) := by
        rw [pySortDescRows, if_neg (by rw [hnr]; simp)]
      have hbody : enhancedRerankBody predict q filtered cfg =
          Except.ok ((sortRowsDesc
            (enhancedFinals logits (filtered.take cfg.top_m) cfg)).take cfg.top_k) := by
        simp only [enhancedRerankBody]
        rw [if_neg hc]
        simp only [hpred, hsort]
      simp only [enhanced_rerank, hbody]
  refine ⟨fun predict q filtered cfg logits hpred hnr =>
    ⟨hmain predict q filtered cfg logits hpred hnr, ?_⟩, ?_, by decide, by decide⟩
  · intro x hx
    rw [hmain predict q filtered cfg logits hpred hnr] at hx
    have hx1 := List.mem_of_mem_take hx
    rw [sortRowsDesc] at hx1
    have hx2 := ((List.perm_insertionSort _ _).mem_iff).1 hx1
    rw [enhancedFinals] at hx2
    obtain ⟨lz, hlz, hsome⟩ := List.mem_filterMap.1 hx2
    by_cases hcond : cfg.min_rerank_score ≤ lz.1 + lz.2.2 * 0.1
    · rw [if_pos hcond] at hsome
      injection hsome with h
      rw [← h]
      exact hcond
    · rw [if_neg hcond] at hsome
      exact absurd hsome (by simp)
  · have hcond : ¬(cfg10.min_rerank_score ≤ (-10 : ℚ) + 1 * 0.1) := by
      norm_num [cfg10]
    have hfin : enhancedFinals [(-10 : ℚ), -10]
        (([(wDocA, (1 : ℚ)), (wDocB, 1)] : List (Doc × ℚ)).take cfg10.top_m) cfg10 = [] := by
      have htk : (([(wDocA, (1 : ℚ)), (wDocB, 1)] : List (Doc × ℚ)).take cfg10.top_m) =
          [(wDocA, (1 : ℚ)), (wDocB, 1)] := by decide
      rw [enhancedFinals, htk]
      simp only [List.zip_cons_cons, List.zip_nil_left, List.zip_nil_right,
        List.filterMap_cons, List.filterMap_nil]
      rw [if_neg hcond, if_neg hcond]
    have hnr0 : hasRaisingPair (enhancedFinals [(-10 : ℚ), -10]
        (([(wDocA, (1 : ℚ)), (wDocB, 1)] : List (Doc × ℚ)).take cfg10.top_m) cfg10) =
        false := by
      rw [hfin]
      rfl
    have heq := hmain predictLow (str (r"q")) [(wDocA, 1), (wDocB, 1)] cfg10 [-10, -10]
      rfl hnr0
    rw [heq, hfin]
    simp [sortRowsDesc, List.insertionSort]

/-- C10 witness: the concrete conjunct, and the threshold statement applied
at a closed instance (hypotheses discharged by `rfl` and `decide`). -/
theorem claim_C10_witness :
    enhanced_rerank predictLow (str (r"q")) [(wDocA, 1), (wDocB, 1)] cfg10 = [] ∧
      enhanced_rerank (fun _ => Except.ok []) (str (r"q")) [] cfg10 =
        ((sortRowsDesc
          (enhancedFinals [] (([] : List (Doc × ℚ)).take cfg10.top_m) cfg10)).take
            cfg10.top_k) ∧
      ∀ x ∈ enhanced_rerank (fun _ => Except.ok []) (str (r"q")) [] cfg10,
        cfg10.min_rerank_score ≤ x.1 :=
  ⟨claim_C10.2.1,
    (claim_C10.1 (fun _ => Except.ok []) (str (r"q")) [] cfg10 [] rfl (by decide)).1,
    (claim_C10.1 (fun _ => Except.ok []) (str (r"q")) [] cfg10 [] rfl (by decide)).2⟩
